import Mathlib

/-!
# A verification model of the BPCells iterator-and-storage core

This file gives a shallow embedding, in Lean, of the parts of the BPCells
sources that the specification talks about:

* the BED fragment reader `BedFragments` and writer `BedFragmentsWriter`
  (`src/fragmentIterators/BedFragments.cpp`),
* the packed-matrix HDF5 open/create helpers (`src/matrixIterators/arrayIO.h`),
* the AnnData sparse-matrix adapter (`src/matrixIterators/ImportMatrixHDF5.cpp`),
* the PeakMatrix / TileMatrix counting rules and the ConcatRows / ConcatCols
  transforms, whose implementations are not among the provided sources; these
  are modelled from the specification, against the test fixtures that are in
  the sources (`tests/googletest/test-peakMatrix.cpp`, `test-matrixIO.cpp`).

Machine integers are modelled as `Nat` (all quantities involved are small and
non-negative on every path exercised here); C++ exceptions are modelled with
`Except`; the gzip line reader is modelled at the granularity of parsed lines.
Definitions come first, then the theorems about them.
-/

namespace BPCellsModel

/-! ## Packed-matrix HDF5 helpers (translated from src/matrixIterators/arrayIO.h) -/

/-- The seven datasets `openPackedMatrixH5` opens readers for (in source order).
They stand in for the constructed `PackedMatrix` reader. -/
def packedMatrixDatasets : List String :=
  ["val_data", "val_idx", "row_data", "row_starts", "row_idx", "col_ptr", "row_count"]

/-- Translated from `openPackedMatrixH5` (src/matrixIterators/arrayIO.h).  The
HDF5 group is modelled by its string attribute `version`; the function rejects
the group unless the attribute equals `"v1-packed"`, and otherwise returns the
reader (modelled by the list of dataset names it opens). -/
def openPackedMatrixH5 (version : String) : Except String (List String) :=
  if version ≠ "v1-packed" then
    Except.error "HDF5 group does not have correct version attribute (v1-packed)"
  else
    Except.ok packedMatrixDatasets

/-- An HDF5 file modelled as an association list from group path to the number
of objects the group contains. -/
structure H5File where
  groups : List (String × Nat)
deriving DecidableEq, Repr

/-- Translated from `createPackedMatrixH5` (src/matrixIterators/arrayIO.h).
`getGroup` is modelled by `find?` on the association list; a present group with
a non-zero object count raises (`"Requested hdf5 group is not empty"`), a
present empty group is returned as-is, and a missing group (the
`GroupException` path) is created fresh.  On success the result carries the
updated file, the group path handed to the writer, and that group's object
count. -/
def createPackedMatrixH5 (f : H5File) (groupPath : String) :
    Except String (H5File × String × Nat) :=
  let gp := if groupPath = "" then "/" else groupPath
  match f.groups.find? (fun g => g.1 == gp) with
  | some g =>
    if g.2 ≠ 0 then Except.error "Requested hdf5 group is not empty"
    else Except.ok (f, gp, g.2)
  | none => Except.ok ({ groups := f.groups ++ [(gp, 0)] }, gp, 0)

/-! ## AnnData sparse-matrix adapter (translated from
src/matrixIterators/ImportMatrixHDF5.cpp) -/

/-- The on-disk AnnData sparse-matrix group, as `openAnnDataMatrix` reads it.
`h5sparseFormat`/`encodingType` model the two possible attributes;
`varIndexNames`/`obsIndexNames` model the `var`/`obs` index name sources; the
three payload arrays are carried verbatim (`α` stands for the f32 payload,
which is never inspected). -/
structure AnnDataGroup (α : Type) where
  h5sparseFormat : Option String
  encodingType : Option String
  dims : List Nat
  varIndexNames : List String
  obsIndexNames : List String
  indices : List Nat
  data : List α
  indptr : List Nat
deriving DecidableEq, Repr

/-- The `StoredMatrix<float>` constructed by `openAnnDataMatrix`: the three
arrays, the row count, and the row/col name providers. -/
structure StoredMatrixModel (α : Type) where
  indices : List Nat
  data : List α
  indptr : List Nat
  rows : Nat
  rowNames : List String
  colNames : List String
deriving DecidableEq, Repr

/-- Translated from `openAnnDataMatrix` (src/matrixIterators/ImportMatrixHDF5.cpp).
The legacy `h5sparse_format` attribute is checked first and gets `"_matrix"`
appended; otherwise `encoding-type` is used; otherwise the function raises.
Initially `col_names` is the `var` index and `row_names` the `obs` index; for
`csr_matrix` the row count is `dims[1]` and the two name providers are swapped,
for `csc_matrix` the row count is `dims[0]` and no swap occurs; any other
encoding raises.  The `indices`, `data` and `indptr` arrays are opened
unchanged in all cases. -/
def openAnnDataMatrix {α : Type} (g : AnnDataGroup α) :
    Except String (StoredMatrixModel α) :=
  match
    (match g.h5sparseFormat with
     | some f => some (f ++ "_matrix")
     | none => g.encodingType) with
  | none =>
    Except.error "h5ad could not be read - missing attribute 'encoding-type' on sparse matrix"
  | some encoding =>
    let colNames0 := g.varIndexNames
    let rowNames0 := g.obsIndexNames
    if encoding = "csr_matrix" then
      Except.ok
        { indices := g.indices, data := g.data, indptr := g.indptr,
          rows := g.dims.getD 1 0,
          rowNames := colNames0, colNames := rowNames0 }
    else if encoding = "csc_matrix" then
      Except.ok
        { indices := g.indices, data := g.data, indptr := g.indptr,
          rows := g.dims.getD 0 0,
          rowNames := rowNames0, colNames := colNames0 }
    else
      Except.error ("Unsupported matrix encoding: " ++ encoding)

/-! ## BedFragmentsWriter::write interrupt cadence (translated from
src/fragmentIterators/BedFragments.cpp, lines 214-244) -/

/-- Translated from the inner `while (fragments.nextFrag())` loop of
`BedFragmentsWriter::write`, with a non-null `checkInterrupt` hook.  `n` is the
running `total_fragments` counter; because the counter is post-incremented, the
hook fires exactly when the counter value before the increment is a multiple of
1024.  The list of counter values at which the hook fired is returned alongside
the final counter; `gzprintf` output is not modelled (the writer's text output
is irrelevant to the cadence of the hook).  A hook error models the C++
exception and aborts the loop. -/
def writeFragLoop {α : Type} (h : Nat → Except String Unit) :
    List α → Nat → List Nat → Except String (Nat × List Nat)
  | [], n, log => Except.ok (n, log)
  | _ :: fs, n, log =>
    if n % 1024 = 0 then
      match h n with
      | Except.error e => Except.error e
      | Except.ok _ => writeFragLoop h fs (n + 1) (log ++ [n])
    else writeFragLoop h fs (n + 1) log

/-- Translated from the outer `while (fragments.nextChr())` loop of
`BedFragmentsWriter::write`: the fragment source delivers one list of fragments
per chromosome, and the `total_fragments` counter runs across chromosomes. -/
def writeChrsLoop {α : Type} (h : Nat → Except String Unit) :
    List (List α) → Nat → List Nat → Except String (Nat × List Nat)
  | [], n, log => Except.ok (n, log)
  | c :: cs, n, log =>
    match writeFragLoop h c n log with
    | Except.error e => Except.error e
    | Except.ok (n2, log2) => writeChrsLoop h cs n2 log2

/-- Translated from `BedFragmentsWriter::write` with a non-null
`checkInterrupt` hook: iterate all chromosomes starting from
`total_fragments = 0`. -/
def bedWriterWrite {α : Type} (h : Nat → Except String Unit)
    (chrs : List (List α)) : Except String (Nat × List Nat) :=
  writeChrsLoop h chrs 0 []

/-! ## BedFragments reader (translated from
src/fragmentIterators/BedFragments.cpp)

The gzip text stream is modelled at the granularity of parsed data lines: a
`BedLine` is the result of `parse_line` on one tab-separated data line
(chromosome name, start, end, cell barcode).  Comment lines are skipped by
`restart` before iteration begins and blank lines are outside the well-formed
inputs considered here, so neither is modelled.  The one-line lookahead buffer
`line_buf`, the `eof` flag (note that `read_line` reports the end of file only
on the *second* failing `gzgets`, leaving the buffer holding a stale copy of
the last line in between), the current chromosome, the sort cursor
`last_start`, and the two name tables are all carried explicitly. -/

/-- One parsed data line of a BED fragment file. -/
structure BedLine where
  chr : String
  start : Nat
  stop : Nat
  cell : String
deriving DecidableEq, Repr

/-- The mutable state of a `BedFragments` instance: the unread lines of the
file, the `line_buf` lookahead (none models a buffer starting with `'\0'`),
the `eof` flag, `current_chr`, `last_start`, and the `chr_names` /
`cell_names` tables (the `chr_lookup` / `cell_id_lookup` hash maps are the
index maps of these lists). -/
structure BedState where
  lines : List BedLine
  lineBuf : Option BedLine
  eof : Bool
  currentChr : String
  lastStart : Nat
  chrNames : List String
  cellNames : List String
deriving DecidableEq, Repr

/-- Translated from `BedFragments::read_line`: on a successful `gzgets` the
next line enters the buffer; at end of input the first call only sets `eof`
and returns true with the buffer untouched (gzgets read nothing), and a
further call clears the buffer and returns false. -/
def readLine (s : BedState) : Bool × BedState :=
  match s.lines with
  | l :: rest => (true, { s with lines := rest, lineBuf := some l })
  | [] =>
    if s.eof then (false, { s with lineBuf := none })
    else (true, { s with eof := true })

/-- Translated from `BedFragments::parse_line`: returns the chromosome name,
start, end and cell id of the buffered line, assigning a fresh cell id (and
extending `cell_names`) when the barcode is new.  An empty buffer parses to
the empty chromosome name. -/
def parseLine (s : BedState) : String × Nat × Nat × Nat × BedState :=
  match s.lineBuf with
  | none => ("", 0, 0, 0, s)
  | some l =>
    match s.cellNames.findIdx? (fun c => c == l.cell) with
    | some i => (l.chr, l.start, l.stop, i, s)
    | none =>
      (l.chr, l.start, l.stop, s.cellNames.length,
       { s with cellNames := s.cellNames ++ [l.cell] })

/-- Errors raised while iterating: `sortErr` models the
`"TSV not in sorted order by chr, start"` runtime error (raised both for a
descending start and for a re-entered chromosome), and `fuelErr` is a
technical marker for loop-fuel exhaustion of the model (never a behaviour of
the source). -/
inductive BedErr where
  | sortErr
  | fuelErr
deriving DecidableEq, Repr

/-- Result of the skip loop inside `BedFragments::nextChr`: either the loop
broke out having stored a new `current_chr`, or the function returned false
from inside the loop (end of file while skipping). -/
inductive ChrLoopRes where
  | broke (chr : String) (s : BedState)
  | ended (s : BedState)
deriving Repr

/-- Translated from the `while(true)` loop of `BedFragments::nextChr`: parse
the buffered line; on an empty or different chromosome name store it as
`current_chr` and break; otherwise check the sort invariant, advance
`last_start`, and read the next line (returning false when the file is
exhausted).  `fuel` bounds the number of iterations of the model only. -/
def nextChrLoop (fuel : Nat) (s : BedState) : Except BedErr ChrLoopRes :=
  match fuel with
  | 0 => Except.error BedErr.fuelErr
  | f + 1 =>
    match parseLine s with
    | (chr, st, _, _, s1) =>
      if chr = "" ∨ chr ≠ s1.currentChr then
        Except.ok (ChrLoopRes.broke chr { s1 with currentChr := chr })
      else if st < s1.lastStart then
        Except.error BedErr.sortErr
      else
        match readLine { s1 with lastStart := st } with
        | (true, s2) => nextChrLoop f s2
        | (false, s2) => Except.ok (ChrLoopRes.ended s2)

/-- Translated from `BedFragments::nextChr`: return false on an exhausted
buffer; otherwise run the skip loop, then register the new chromosome name,
raising the sort error when the name was already registered (`chr_lookup`
emplace failed), and reset `last_start`. -/
def nextChr (fuel : Nat) (s : BedState) : Except BedErr (Bool × BedState) :=
  match s.lineBuf with
  | none => Except.ok (false, s)
  | some _ =>
    match nextChrLoop fuel s with
    | Except.error e => Except.error e
    | Except.ok (ChrLoopRes.ended s1) => Except.ok (false, s1)
    | Except.ok (ChrLoopRes.broke chr s1) =>
      if s1.chrNames.contains chr then Except.error BedErr.sortErr
      else
        Except.ok (true,
          { s1 with chrNames := s1.chrNames ++ [chr], lastStart := 0 })

/-- Translated from `BedFragments::load`: up to `cap` iterations, each parsing
the buffered line into the output buffer (`acc` holds the entries stored so
far; the model records which line's fields were stored).  A differing or empty
chromosome name returns the entries delivered so far; a descending start
raises; after a successful store the next line is read, and a failing read
returns with the just-stored entry *excluded* (the source returns `i`, so the
entry written at index `i` is not part of the count — this is what discards
the stale duplicate of the final line). -/
def loadLoop (cap : Nat) (s : BedState) (acc : List BedLine) :
    Except BedErr (List BedLine × BedState) :=
  match cap with
  | 0 => Except.ok (acc, s)
  | cap1 + 1 =>
    match s.lineBuf with
    | none =>
      match parseLine s with
      | (_, _, _, _, s1) => Except.ok (acc, s1)
    | some l =>
      match parseLine s with
      | (chr, st, _, _, s1) =>
        if chr = "" ∨ chr ≠ s1.currentChr then Except.ok (acc, s1)
        else if st < s1.lastStart then Except.error BedErr.sortErr
        else
          match readLine { s1 with lastStart := st } with
          | (true, s2) => loadLoop cap1 s2 (acc ++ [l])
          | (false, s2) => Except.ok (acc, s2)

/-- One `load` call with capacity `cap` and an empty output buffer. -/
def load (cap : Nat) (s : BedState) : Except BedErr (List BedLine × BedState) :=
  loadLoop cap s []

/-- The standard consumer loop for one chromosome: call `load` repeatedly
until it delivers no fragments, concatenating the deliveries (the fragment
iterator protocol: `n == 0` means the chromosome is exhausted).  `fuel`
bounds the number of `load` calls of the model only. -/
def drainChr (fuel cap : Nat) (s : BedState) :
    Except BedErr (List BedLine × BedState) :=
  match fuel with
  | 0 => Except.error BedErr.fuelErr
  | f + 1 =>
    match load cap s with
    | Except.error e => Except.error e
    | Except.ok (frags, s1) =>
      match frags with
      | [] => Except.ok ([], s1)
      | _ =>
        match drainChr f cap s1 with
        | Except.error e => Except.error e
        | Except.ok (rest, s2) => Except.ok (frags ++ rest, s2)

/-- The standard full iteration: `while (nextChr()) drain the chromosome`,
collecting every delivered fragment in order.  `g` bounds the number of
chromosomes and `f` the per-chromosome loop fuel (model devices only). -/
def runBed : Nat → Nat → Nat → BedState → Except BedErr (List BedLine × BedState)
  | 0, _, _, _ => Except.error BedErr.fuelErr
  | g + 1, f, cap, s =>
    match nextChr f s with
    | Except.error e => Except.error e
    | Except.ok (false, s1) => Except.ok ([], s1)
    | Except.ok (true, s1) =>
      match drainChr f cap s1 with
      | Except.error e => Except.error e
      | Except.ok (frags, s2) =>
        match runBed g f cap s2 with
        | Except.error e => Except.error e
        | Except.ok (rest, s3) => Except.ok (frags ++ rest, s3)

/-- Translated from the `BedFragments` constructor / `restart` (with an empty
comment prefix): open the file and read the first line into the buffer,
starting from an empty lookup state with `current_chr = ""`. -/
def initBed (fileLines : List BedLine) : BedState :=
  (readLine
    { lines := fileLines, lineBuf := none, eof := false, currentChr := "",
      lastStart := 0, chrNames := [], cellNames := [] }).2

/-- Translated from `BedFragments::chrNames`: NULL (none) when the id is out
of range of the names discovered so far, else the stored name. -/
def chrNamesFn (s : BedState) (chrId : Nat) : Option String :=
  if s.chrNames.length ≤ chrId then none else s.chrNames.get? chrId

/-- Translated from `BedFragments::cellNames`: NULL (none) when the id is out
of range of the names discovered so far, else the stored name. -/
def cellNamesFn (s : BedState) (cellId : Nat) : Option String :=
  if s.cellNames.length ≤ cellId then none else s.cellNames.get? cellId

/-! ### Well-formed BED inputs and state descriptions used by the theorems -/

/-- One contiguous chromosome block of a BED file: the chromosome name and its
(start, end, barcode) data lines in file order. -/
structure ChrBlock where
  chr : String
  frags : List (Nat × Nat × String)
deriving DecidableEq, Repr

/-- The data lines contributed by one block. -/
def blockLines (b : ChrBlock) : List BedLine :=
  b.frags.map (fun f => { chr := b.chr, start := f.1, stop := f.2.1, cell := f.2.2 })

/-- All data lines of a blocked file, in file order. -/
def linesOf (blocks : List ChrBlock) : List BedLine :=
  (blocks.map blockLines).flatten

/-- Boolean check that a list of starts is non-decreasing continuing from
`v` (ties permitted). -/
def chainLe (v : Nat) : List Nat → Bool
  | [] => true
  | x :: xs => decide (v ≤ x) && chainLe x xs

/-- A well-formed chromosome block: a non-empty chromosome name, at least one
data line, and non-decreasing starts. -/
def wfBlock (b : ChrBlock) : Prop :=
  b.chr ≠ "" ∧ b.frags ≠ [] ∧ chainLe 0 ((blockLines b).map BedLine.start) = true

/-- A well-formed BED input: every block well-formed and block chromosome
names pairwise distinct (chromosomes appear contiguously). -/
def wfBlocks (blocks : List ChrBlock) : Prop :=
  (∀ b ∈ blocks, wfBlock b) ∧ (blocks.map ChrBlock.chr).Nodup

instance : DecidablePred wfBlock := fun b => by
  unfold wfBlock; infer_instance

instance : DecidablePred wfBlocks := fun blocks => by
  unfold wfBlocks; infer_instance

/-- The state of a reader whose buffer and unread lines hold exactly
`pending`, on chromosome `c` with sort cursor `v` and the given name
tables. -/
def mkFresh (pending : List BedLine) (c : String) (v : Nat)
    (chrN cellN : List String) : BedState :=
  { lines := pending.tail, lineBuf := pending.head?, eof := false,
    currentChr := c, lastStart := v, chrNames := chrN, cellNames := cellN }

/-- The state just after `read_line` first hit the end of file: `eof` is set
but the buffer still holds a stale copy of the last delivered line `l`. -/
def mkStale (l : BedLine) (c : String) (chrN cellN : List String) : BedState :=
  { lines := [], lineBuf := some l, eof := true, currentChr := c,
    lastStart := l.start, chrNames := chrN, cellNames := cellN }

/-- The fully terminal state: end of file reported, buffer cleared. -/
def mkDone (c : String) (v : Nat) (chrN cellN : List String) : BedState :=
  { lines := [], lineBuf := none, eof := true, currentChr := c,
    lastStart := v, chrNames := chrN, cellNames := cellN }

/-- The cell table after `parse_line` saw barcode `c` once (the emplace of
`cell_id_lookup`): unchanged when present, appended when new. -/
def addCell (cn : List String) (c : String) : List String :=
  match cn.findIdx? (fun x => x == c) with
  | some _ => cn
  | none => cn ++ [c]

/-- The cell table after parsing the given lines in order. -/
def addCells (cn : List String) (ls : List BedLine) : List String :=
  ls.foldl (fun acc l => addCell acc l.cell) cn

/-- The `last_start` cursor after delivering `ls` on top of cursor `v`. -/
def newLast (v : Nat) : List BedLine → Nat
  | [] => v
  | l :: ls => newLast l.start ls

/-- The last of `d :: ls` (the line the stale end-of-file buffer holds). -/
def lastLine (d : BedLine) : List BedLine → BedLine
  | [] => d
  | l :: ls => lastLine l ls

/-! ## PeakMatrix / TileMatrix counting (modelled from the spec, evaluated on
the fixtures of tests/googletest/test-peakMatrix.cpp) -/

/-- A stored fragment of the test fixtures: chromosome id, cell id, start,
end, in the fragment source's own namespace. -/
structure FixFrag where
  chr : Nat
  cell : Nat
  start : Nat
  stop : Nat
deriving DecidableEq, Repr

/-- A peak: chromosome id (in the caller's namespace), start, end. -/
structure PeakDef where
  chr : Nat
  start : Nat
  stop : Nat
deriving DecidableEq, Repr

/-- A tiled region: chromosome id (caller's namespace), start, end and tile
width. -/
structure TileRegion where
  chr : Nat
  start : Nat
  stop : Nat
  width : Nat
deriving DecidableEq, Repr

/-- Modelled from the spec: peak and region chromosome ids live in the
caller's namespace and come with a name table; they are reconciled against
the fragment source's chromosome-name table by name. -/
def reconcileChr (callerNames sourceNames : List String) (chrId : Nat) :
    Option Nat :=
  (callerNames.get? chrId).bind (fun nm => sourceNames.findIdx? (fun x => x == nm))

/-- Modelled from the spec: the count a fragment `(s, e)` adds to a peak `p`
is `I[p.start ≤ s < p.end] + I[p.start ≤ e-1 < p.end]` (each endpoint that
falls inside the half-open peak contributes 1).  The PeakMatrix
implementation itself is not among the provided sources; only its test
fixture is. -/
def peakHit (pstart pstop s e : Nat) : Nat :=
  (if pstart ≤ s ∧ s < pstop then 1 else 0) +
    (if pstart ≤ e - 1 ∧ e - 1 < pstop then 1 else 0)

/-- The (cell, peak-column) contributions of one fragment: column `c` appears
`peakHit`-many times when the fragment's chromosome reconciles to the peak's
chromosome. -/
def peakContribs (peaks : List PeakDef) (peakNames fragNames : List String)
    (f : FixFrag) : List (Nat × Nat) :=
  (List.range peaks.length).flatMap (fun c =>
    match peaks.get? c with
    | none => []
    | some p =>
      match reconcileChr peakNames fragNames p.chr with
      | none => []
      | some pc =>
        if f.chr = pc then
          List.replicate (peakHit p.start p.stop f.start f.stop) (f.cell, c)
        else [])

/-- The PeakMatrix entry at (cell row, peak column). -/
def peakMatrixEntry (frags : List FixFrag) (peaks : List PeakDef)
    (peakNames fragNames : List String) (row col : Nat) : Nat :=
  (frags.flatMap (peakContribs peaks peakNames fragNames)).count (row, col)

/-- Modelled from the spec: tiles of region `r` are laid out sequentially,
`numTiles r` of them, the last truncated at `r.stop`. -/
def numTiles (r : TileRegion) : Nat :=
  (r.stop - r.start + r.width - 1) / r.width

/-- The first output column of region `i` (regions laid out in input
order). -/
def tileColOffset (regions : List TileRegion) (i : Nat) : Nat :=
  (((regions.take i).map numTiles).foldl (fun a b => a + b) 0)

/-- Modelled from the spec: each of the two fragment endpoints (`s` and
`e - 1`) contributes 1 to the tile containing it, provided the endpoint lies
inside the region; the tile index of endpoint `x` inside region `r` is
`(x - r.start) / r.width`.  Returns the global output columns hit by the
fragment, one occurrence per contribution.  The TileMatrix implementation
itself is not among the provided sources; only its test fixture is. -/
def tileContribs (regions : List TileRegion)
    (regionNames fragNames : List String) (f : FixFrag) : List (Nat × Nat) :=
  [f.start, f.stop - 1].flatMap (fun x =>
    (List.range regions.length).filterMap (fun i =>
      match regions.get? i with
      | none => none
      | some r =>
        match reconcileChr regionNames fragNames r.chr with
        | none => none
        | some rc =>
          if f.chr = rc ∧ r.start ≤ x ∧ x < r.stop then
            some (f.cell, tileColOffset regions i + (x - r.start) / r.width)
          else none))

/-- The TileMatrix entry at (cell row, tile column). -/
def tileMatrixEntry (frags : List FixFrag) (regions : List TileRegion)
    (regionNames fragNames : List String) (row col : Nat) : Nat :=
  (frags.flatMap (tileContribs regions regionNames fragNames)).count (row, col)

/-- The non-zero (row, col, value) entries of an `entry` function, enumerated
column-major with rows ascending (the order a column-ordered MatrixIter
emits them in). -/
def nonzeroEntries (numRows numCols : Nat) (entry : Nat → Nat → Nat) :
    List (Nat × Nat × Nat) :=
  (List.range numCols).flatMap (fun c =>
    (List.range numRows).filterMap (fun r =>
      if entry r c = 0 then none else some (r, c, entry r c)))

/-! ### The §8 scenario A fixture (TEST(PeakMatrix, PeakMatrix)) -/

/-- Chromosome-0 fragments of scenario A: for j in [0..5), for i in [0..j],
(i+1) copies of (cell=i, start=j, end=1002+i), exactly as the test writes
them. -/
def scenarioAFragsChr0 : List FixFrag :=
  (List.range 5).flatMap (fun j =>
    (List.range (j + 1)).flatMap (fun i =>
      (List.range (i + 1)).map (fun _ =>
        { chr := 0, cell := i, start := j, stop := 1002 + i })))

/-- Chromosome-1 fragments of scenario A. -/
def scenarioAFragsChr1 : List FixFrag :=
  [⟨1, 0, 9, 21⟩, ⟨1, 1, 9, 20⟩, ⟨1, 2, 10, 21⟩, ⟨1, 3, 10, 20⟩]

/-- All scenario-A fragments in iteration order. -/
def scenarioAFrags : List FixFrag := scenarioAFragsChr0 ++ scenarioAFragsChr1

/-- The scenario-A peaks, in input order. -/
def scenarioAPeaks : List PeakDef :=
  [⟨0, 2, 4⟩, ⟨0, 1002, 1005⟩, ⟨0, 1004, 1006⟩, ⟨1, 10, 20⟩]

/-- The chromosome-name table shared by the scenario-A fragment source and
the peak caller. -/
def scenarioAChrNames : List String := ["chr1", "chr2"]

/-- The scenario-A cell names (5 cells). -/
def scenarioACellNames : List String := ["c0", "c1", "c2", "c3", "c4"]

/-! ### The §8 scenario B fixture (TEST(PeakMatrix, TileMatrix)) -/

/-- The scenario-B regions: chr=[0,0,0,1], start=[10,30,50,70],
end=[20,40,60,80], width=[5,3,5,12]. -/
def scenarioBRegions : List TileRegion :=
  [⟨0, 10, 20, 5⟩, ⟨0, 30, 40, 3⟩, ⟨0, 50, 60, 5⟩, ⟨1, 70, 80, 12⟩]

/-- The scenario-B fragments, exactly as the test writes them. -/
def scenarioBFrags : List FixFrag :=
  [⟨0, 0, 9, 21⟩, ⟨0, 0, 9, 10⟩, ⟨0, 1, 12, 78⟩]
  ++ (List.range 12).flatMap (fun i =>
      (List.range (i + 1)).map (fun _ => ⟨0, 2, 11 + i, 30 + i⟩))
  ++ [⟨0, 0, 20, 21⟩]
  ++ (List.range 12).flatMap (fun i =>
      (List.range (i + 2)).map (fun _ => ⟨0, 3, 29 + i, 50 + i⟩))
  ++ [⟨1, 0, 69, 81⟩, ⟨1, 1, 69, 80⟩, ⟨1, 2, 70, 81⟩, ⟨1, 3, 70, 80⟩]

/-! ## ConcatRows / ConcatCols (modelled from the spec; only the tests in
tests/googletest/test-matrixIO.cpp are among the provided sources) -/

/-- A sparse matrix as a column-ordered iterator source: shape plus, for each
column, its (row, value) entries. -/
structure SpMat where
  rows : Nat
  cols : Nat
  col : Nat → List (Nat × Nat)

/-- Every entry's row index is in range. -/
def SpMat.wf (m : SpMat) : Prop :=
  ∀ j, ∀ p ∈ m.col j, p.1 < m.rows

/-- The dense form: the sum of the values stored at (i, j) (a single value
for well-formed inputs; zero where no entry exists). -/
def SpMat.dense (m : SpMat) (i j : Nat) : Nat :=
  ((m.col j).filter (fun p => p.1 = i)).foldl (fun a p => a + p.2) 0

/-- Modelled from the spec: `ConcatRows([A,B])` requires equal column counts
(construction is rejected otherwise) and row-stacks — for each column j it
emits A's entries verbatim and then B's entries with rows offset by
`A.rows`. -/
def concatRows (a b : SpMat) : Except String SpMat :=
  if a.cols ≠ b.cols then Except.error "ConcatRows: mismatched cols"
  else
    Except.ok
      { rows := a.rows + b.rows, cols := a.cols,
        col := fun j => a.col j ++ (b.col j).map (fun p => (p.1 + a.rows, p.2)) }

/-- Modelled from the spec: `ConcatCols([A,B])` requires equal row counts
(construction is rejected otherwise) and column-concatenates: columns of A
first, then columns of B. -/
def concatCols (a b : SpMat) : Except String SpMat :=
  if a.rows ≠ b.rows then Except.error "ConcatCols: mismatched rows"
  else
    Except.ok
      { rows := a.rows, cols := a.cols + b.cols,
        col := fun j => if j < a.cols then a.col j else b.col (j - a.cols) }

/-- Vertical stacking of two dense forms. -/
def vstackDense (a b : SpMat) (i j : Nat) : Nat :=
  if i < a.rows then a.dense i j else b.dense (i - a.rows) j

/-- Horizontal stacking of two dense forms. -/
def hstackDense (a b : SpMat) (i j : Nat) : Nat :=
  if j < a.cols then a.dense i j else b.dense i (j - a.cols)

/-! ## Theorems -/

/-- C5 counterexample: the claim names `"packed-matrix-v1"` as the accepted
version tag, but `openPackedMatrixH5` accepts exactly `"v1-packed"`: a group
whose version attribute is `"packed-matrix-v1"` (the claim's tag) is rejected,
while `"v1-packed"` — a string other than the claim's tag — succeeds. -/
theorem c5_version_tag_counterexample :
    ("v1-packed" ≠ "packed-matrix-v1") ∧
    (∃ e, openPackedMatrixH5 "packed-matrix-v1" = Except.error e) ∧
    openPackedMatrixH5 "v1-packed" = Except.ok packedMatrixDatasets := by
  refine ⟨by decide, ⟨_, rfl⟩, rfl⟩

/-- C5 (amended): `openPackedMatrixH5` succeeds only on a group whose string
attribute `version` equals the packed-matrix version tag `"v1-packed"`; for
every group whose version attribute is any other string it raises an error
and returns no reader. -/
theorem c5_version_gate (v : String) :
    (v = "v1-packed" → openPackedMatrixH5 v = Except.ok packedMatrixDatasets)
    ∧ (v ≠ "v1-packed" → ∃ e, openPackedMatrixH5 v = Except.error e) := by
  constructor
  · rintro rfl
    rfl
  · intro hv
    refine ⟨"HDF5 group does not have correct version attribute (v1-packed)", ?_⟩
    simp [openPackedMatrixH5, hv]

/-- Witness for `c5_version_gate` at the tag itself and at a non-tag
string. -/
theorem c5_version_gate_witness :
    openPackedMatrixH5 "v1-packed" = Except.ok packedMatrixDatasets ∧
    ∃ e, openPackedMatrixH5 "unpacked-matrix-v9" = Except.error e :=
  ⟨(c5_version_gate "v1-packed").1 rfl,
   (c5_version_gate "unpacked-matrix-v9").2 (by decide)⟩

/-- C8: `createPackedMatrixH5` raises whenever the requested group exists and
holds at least one object (the store is returned unchanged only through the
error, no `ok` with a mutated file is produced); when the group does not exist
it is created fresh and empty; and every group handed out through `ok` holds
zero objects, so a writer is only ever handed an empty group. -/
theorem c8_create_packed_conflict (f : H5File) (p : String) :
    (∀ pr, f.groups.find? (fun g => g.1 == (if p = "" then "/" else p)) = some pr →
      pr.2 ≠ 0 → createPackedMatrixH5 f p = Except.error "Requested hdf5 group is not empty")
    ∧ (f.groups.find? (fun g => g.1 == (if p = "" then "/" else p)) = none →
      createPackedMatrixH5 f p =
        Except.ok (⟨f.groups ++ [((if p = "" then "/" else p), 0)]⟩,
          (if p = "" then "/" else p), 0))
    ∧ (∀ f2 gp cnt, createPackedMatrixH5 f p = Except.ok (f2, gp, cnt) → cnt = 0) := by
  refine ⟨?_, ?_, ?_⟩
  · intro pr hfind hne
    simp only [createPackedMatrixH5, hfind, if_pos hne]
  · intro hfind
    simp only [createPackedMatrixH5, hfind]
  · intro f2 gp cnt hok
    simp only [createPackedMatrixH5] at hok
    rcases hfind : f.groups.find? (fun g => g.1 == (if p = "" then "/" else p)) with _ | pr <;>
      simp only [hfind] at hok
    · injection hok with h
      injection h with h1 h23
      injection h23 with h2 h3
      exact h3.symm
    · by_cases h2 : pr.2 = 0
      · rw [if_neg (by simp [h2])] at hok
        injection hok with h
        injection h with h1 h23
        injection h23 with h2b h3
        rw [← h3, h2]
      · rw [if_pos h2] at hok
        exact Except.noConfusion hok

/-- Witness for `c8_create_packed_conflict`: opening the non-empty group
`"/a"` raises, opening the absent group `"/c"` creates it fresh and empty. -/
theorem c8_create_packed_conflict_witness :
    createPackedMatrixH5 ⟨[("/a", 2), ("/b", 0)]⟩ "/a" =
      Except.error "Requested hdf5 group is not empty"
    ∧ createPackedMatrixH5 ⟨[("/a", 2), ("/b", 0)]⟩ "/c" =
      Except.ok (⟨[("/a", 2), ("/b", 0), ("/c", 0)]⟩, "/c", 0) := by
  constructor
  · exact (c8_create_packed_conflict ⟨[("/a", 2), ("/b", 0)]⟩ "/a").1
      ("/a", 2) (by decide) (by decide)
  · exact (c8_create_packed_conflict ⟨[("/a", 2), ("/b", 0)]⟩ "/c").2.1 (by decide)

/-- C10: the `chrNames` / `cellNames` accessors of `BedFragments` return NULL
(modelled as `none`) for every identifier at or beyond the number of names
discovered so far, and the stored name for every in-range identifier. -/
theorem c10_names_null_safe (s : BedState) (i : Nat) :
    (s.chrNames.length ≤ i → chrNamesFn s i = none)
    ∧ (i < s.chrNames.length →
        chrNamesFn s i = s.chrNames.get? i ∧ ∃ nm, chrNamesFn s i = some nm)
    ∧ (s.cellNames.length ≤ i → cellNamesFn s i = none)
    ∧ (i < s.cellNames.length →
        cellNamesFn s i = s.cellNames.get? i ∧ ∃ nm, cellNamesFn s i = some nm) := by
  refine ⟨?_, ?_, ?_, ?_⟩
  · intro h
    simp [chrNamesFn, h]
  · intro h
    have h1 : chrNamesFn s i = s.chrNames.get? i := by
      unfold chrNamesFn
      rw [if_neg (Nat.not_le.mpr h)]
    exact ⟨h1, ⟨_, by rw [h1, List.get?_eq_get h]⟩⟩
  · intro h
    simp [cellNamesFn, h]
  · intro h
    have h1 : cellNamesFn s i = s.cellNames.get? i := by
      unfold cellNamesFn
      rw [if_neg (Nat.not_le.mpr h)]
    exact ⟨h1, ⟨_, by rw [h1, List.get?_eq_get h]⟩⟩

/-- Witness for `c10_names_null_safe`: a state with one chromosome and two
cells, probed in range and out of range. -/
theorem c10_names_null_safe_witness :
    (chrNamesFn (initBed [⟨"chr1", 1, 2, "A"⟩]) 5 = none)
    ∧ (cellNamesFn
        { initBed [] with cellNames := ["A", "B"] } 1 = some "B") := by
  constructor
  · exact (c10_names_null_safe (initBed [⟨"chr1", 1, 2, "A"⟩]) 5).1 (by decide)
  · have h := ((c10_names_null_safe
      { initBed [] with cellNames := ["A", "B"] } 1).2.2.2 (by decide)).1
    simpa using h

/-- C7: `openAnnDataMatrix` exposes a `csr_matrix` group (modern attribute or
legacy `h5sparse_format = "csr"`) as CSC without rewriting `indices`, `data`
or `indptr`: the row count is `dims[1]` and the row/col name providers are
swapped relative to the `csc_matrix` case, where the row count is `dims[0]`
and no swap occurs. -/
theorem c7_anndata_csr_transpose_view {α : Type} (g : AnnDataGroup α) :
    (g.h5sparseFormat = none → g.encodingType = some "csr_matrix" →
      openAnnDataMatrix g = Except.ok
        ⟨g.indices, g.data, g.indptr, g.dims.getD 1 0,
          g.varIndexNames, g.obsIndexNames⟩)
    ∧ (g.h5sparseFormat = none → g.encodingType = some "csc_matrix" →
      openAnnDataMatrix g = Except.ok
        ⟨g.indices, g.data, g.indptr, g.dims.getD 0 0,
          g.obsIndexNames, g.varIndexNames⟩)
    ∧ (g.h5sparseFormat = some "csr" →
      openAnnDataMatrix g = Except.ok
        ⟨g.indices, g.data, g.indptr, g.dims.getD 1 0,
          g.varIndexNames, g.obsIndexNames⟩)
    ∧ (g.h5sparseFormat = some "csc" →
      openAnnDataMatrix g = Except.ok
        ⟨g.indices, g.data, g.indptr, g.dims.getD 0 0,
          g.obsIndexNames, g.varIndexNames⟩) := by
  refine ⟨?_, ?_, ?_, ?_⟩
  · intro h1 h2
    simp [openAnnDataMatrix, h1, h2]
  · intro h1 h2
    simp [openAnnDataMatrix, h1, h2]
  · intro h1
    simp [openAnnDataMatrix, h1]
  · intro h1
    simp [openAnnDataMatrix, h1]

/-- Witness for `c7_anndata_csr_transpose_view` on a concrete modern
`csr_matrix` group: rows come from `dims[1]` and the name providers swap,
while the three arrays pass through verbatim. -/
theorem c7_anndata_csr_transpose_view_witness :
    openAnnDataMatrix
        (⟨none, some "csr_matrix", [3, 2], ["v1", "v2"], ["o1", "o2", "o3"],
          [0, 1], [10, 20], [0, 1, 2]⟩ : AnnDataGroup Nat) =
      Except.ok ⟨[0, 1], [10, 20], [0, 1, 2], 2, ["v1", "v2"], ["o1", "o2", "o3"]⟩ := by
  have h := (c7_anndata_csr_transpose_view
      (⟨none, some "csr_matrix", [3, 2], ["v1", "v2"], ["o1", "o2", "o3"],
        [0, 1], [10, 20], [0, 1, 2]⟩ : AnnDataGroup Nat)).1 rfl rfl
  simpa using h

set_option maxRecDepth 10000 in
/-- C1: on the §8 scenario-A fixture, the endpoint-inside counting rule
`I[p.start ≤ s < p.end] + I[p.start ≤ e-1 < p.end]` produces a 5x4 matrix (5
cells, 4 peaks) whose non-zero (row=cell, col=peak, count) entries, column
by column, are exactly the twelve the claim lists. -/
theorem c1_peak_matrix_scenario_a :
    scenarioACellNames.length = 5 ∧ scenarioAPeaks.length = 4 ∧
    nonzeroEntries 5 4
        (peakMatrixEntry scenarioAFrags scenarioAPeaks scenarioAChrNames scenarioAChrNames) =
      [(0, 0, 2), (1, 0, 4), (2, 0, 6), (3, 0, 4),
       (1, 1, 8), (2, 1, 9), (3, 1, 8),
       (3, 2, 8), (4, 2, 5),
       (1, 3, 1), (2, 3, 1), (3, 3, 2)] := by
  refine ⟨rfl, rfl, ?_⟩
  decide

set_option maxRecDepth 10000 in
/-- C2: on the §8 scenario-B fixture, the regions tile into [2, 4, 2, 1]
sequential columns (9 in all, last tile of each region truncated), and the
endpoint-inside tile counting rule produces exactly the sixteen non-zero
(row, col, count) entries the claim lists. -/
theorem c2_tile_matrix_scenario_b :
    scenarioBRegions.map numTiles = [2, 4, 2, 1] ∧
    nonzeroEntries 5 9
        (tileMatrixEntry scenarioBFrags scenarioBRegions scenarioAChrNames scenarioAChrNames) =
      [(1, 0, 1), (2, 0, 10),
       (2, 1, 35),
       (2, 2, 9), (3, 2, 12),
       (2, 3, 18), (3, 3, 21),
       (2, 4, 27), (3, 4, 30),
       (2, 5, 11), (3, 5, 12),
       (3, 6, 25),
       (3, 7, 50),
       (1, 8, 1), (2, 8, 1), (3, 8, 2)] := by
  refine ⟨rfl, ?_⟩
  decide

/-! ### Helper lemmas about sparse columns -/

/-- Folding addition of second components is the sum of the second
components. -/
theorem foldl_add_snd (l : List (Nat × Nat)) (n : Nat) :
    l.foldl (fun a p => a + p.2) n = n + (l.map Prod.snd).sum := by
  induction l generalizing n with
  | nil => simp
  | cons p t ih => simp [ih, Nat.add_assoc]

/-- The dense entry as a sum over the matching column entries. -/
theorem dense_eq_sum (m : SpMat) (i j : Nat) :
    m.dense i j = (((m.col j).filter (fun p => p.1 = i)).map Prod.snd).sum := by
  unfold SpMat.dense
  rw [foldl_add_snd]
  exact Nat.zero_add _

/-- Filtering a row-shifted column for a row below the shift finds nothing. -/
theorem filter_shift_none (l : List (Nat × Nat)) (k i : Nat) (hik : i < k) :
    (l.map (fun p => (p.1 + k, p.2))).filter (fun p => p.1 = i) = [] := by
  induction l with
  | nil => rfl
  | cons p t ih =>
    have h : ¬(p.1 + k = i) := by omega
    simpa [h] using ih

/-- Filtering a row-shifted column for a row at or above the shift is the
shifted filter of the original column. -/
theorem filter_shift (l : List (Nat × Nat)) (k i : Nat) (hk : k ≤ i) :
    (l.map (fun p => (p.1 + k, p.2))).filter (fun p => p.1 = i) =
      (l.filter (fun p => p.1 = i - k)).map (fun p => (p.1 + k, p.2)) := by
  induction l with
  | nil => rfl
  | cons p t ih =>
    simp only [List.map_cons, List.filter_cons]
    by_cases h : p.1 + k = i
    · have h2 : p.1 = i - k := by omega
      rw [if_pos (by simpa using h), if_pos (by simpa using h2), List.map_cons, ih]
    · have h2 : ¬(p.1 = i - k) := by omega
      rw [if_neg (by simpa using h), if_neg (by simpa using h2), ih]

/-- Filtering for a row at or above every stored row finds nothing. -/
theorem filter_big_none (l : List (Nat × Nat)) (r i : Nat)
    (hw : ∀ p ∈ l, p.1 < r) (hir : r ≤ i) :
    l.filter (fun p => p.1 = i) = [] := by
  induction l with
  | nil => rfl
  | cons p t ih =>
    have h1 : ¬(p.1 = i) := by
      have := hw p (by simp)
      omega
    simpa [h1] using ih fun q hq => hw q (by simp [hq])

/-- C6: `ConcatRows([A,B])` row-stacks: with equal column counts its dense
form is the vertical stack of the dense forms (B's rows offset by A's row
count), and construction raises when the column counts differ; symmetrically
`ConcatCols([A,B])` column-stacks with equal row counts and raises when the
row counts differ. -/
theorem c6_concat_dense (a b : SpMat) :
    (a.cols = b.cols → a.wf → ∃ m, concatRows a b = Except.ok m ∧
      m.rows = a.rows + b.rows ∧ m.cols = a.cols ∧
      ∀ i j, m.dense i j = vstackDense a b i j)
    ∧ (a.cols ≠ b.cols → ∃ e, concatRows a b = Except.error e)
    ∧ (a.rows = b.rows → ∃ m, concatCols a b = Except.ok m ∧
      m.rows = a.rows ∧ m.cols = a.cols + b.cols ∧
      ∀ i j, m.dense i j = hstackDense a b i j)
    ∧ (a.rows ≠ b.rows → ∃ e, concatCols a b = Except.error e) := by
  refine ⟨?_, ?_, ?_, ?_⟩
  · intro hc hw
    refine ⟨SpMat.mk (a.rows + b.rows) a.cols
        (fun j => a.col j ++ (b.col j).map (fun p => (p.1 + a.rows, p.2))),
      by simp [concatRows, hc], rfl, rfl, ?_⟩
    intro i j
    unfold vstackDense
    rw [dense_eq_sum]
    by_cases hi : i < a.rows
    · rw [if_pos hi, dense_eq_sum]
      show (((a.col j ++ (b.col j).map fun p => (p.1 + a.rows, p.2)).filter
        (fun p => p.1 = i)).map Prod.snd).sum = _
      rw [List.filter_append, filter_shift_none _ _ _ hi, List.append_nil]
    · rw [if_neg hi, dense_eq_sum]
      show (((a.col j ++ (b.col j).map fun p => (p.1 + a.rows, p.2)).filter
        (fun p => p.1 = i)).map Prod.snd).sum = _
      rw [List.filter_append,
        filter_big_none (a.col j) a.rows i (hw j) (Nat.le_of_not_lt hi),
        List.nil_append, filter_shift _ _ _ (Nat.le_of_not_lt hi), List.map_map]
      rfl
  · intro hc
    exact ⟨"ConcatRows: mismatched cols", by simp [concatRows, hc]⟩
  · intro hr
    refine ⟨SpMat.mk a.rows (a.cols + b.cols)
        (fun j => if j < a.cols then a.col j else b.col (j - a.cols)),
      by simp [concatCols, hr], rfl, rfl, ?_⟩
    intro i j
    unfold hstackDense SpMat.dense
    by_cases hj : j < a.cols
    · simp only [hj, if_pos]
    · simp only [hj, if_neg, if_false]
  · intro hr
    exact ⟨"ConcatCols: mismatched rows", by simp [concatCols, hr]⟩

/-- Witness for `c6_concat_dense` on concrete 2x2 / 1x2 matrices and a
mismatched 1x3 matrix. -/
theorem c6_concat_dense_witness :
    (∃ m, concatRows ⟨2, 2, fun _ => [(0, 5), (1, 7)]⟩ ⟨1, 2, fun _ => [(0, 3)]⟩ =
      Except.ok m ∧ m.rows = 2 + 1 ∧ m.cols = 2 ∧
      ∀ i j, m.dense i j =
        vstackDense ⟨2, 2, fun _ => [(0, 5), (1, 7)]⟩ ⟨1, 2, fun _ => [(0, 3)]⟩ i j)
    ∧ (∃ e, concatRows ⟨2, 2, fun _ => [(0, 5), (1, 7)]⟩ ⟨1, 3, fun _ => []⟩ =
      Except.error e)
    ∧ (∃ m, concatCols ⟨2, 2, fun _ => [(0, 5), (1, 7)]⟩ ⟨2, 1, fun _ => [(1, 4)]⟩ =
      Except.ok m ∧ m.rows = 2 ∧ m.cols = 2 + 1 ∧
      ∀ i j, m.dense i j =
        hstackDense ⟨2, 2, fun _ => [(0, 5), (1, 7)]⟩ ⟨2, 1, fun _ => [(1, 4)]⟩ i j)
    ∧ (∃ e, concatCols ⟨2, 2, fun _ => [(0, 5), (1, 7)]⟩ ⟨3, 1, fun _ => []⟩ =
      Except.error e) := by
  refine ⟨?_, ?_, ?_, ?_⟩
  · refine (c6_concat_dense _ _).1 rfl ?_
    intro j p hp
    simp only [List.mem_cons, List.not_mem_nil, or_false] at hp
    rcases hp with h | h <;> simp [h]
  · exact (c6_concat_dense _ _).2.1 (by decide)
  · exact (c6_concat_dense _ _).2.2.1 rfl
  · exact (c6_concat_dense _ _).2.2.2 (by decide)

/-! ### Helper lemmas for the writer interrupt cadence -/

/-- The inner writer loop distributes over list concatenation. -/
theorem writeFragLoop_append {α : Type} (h : Nat → Except String Unit)
    (l1 l2 : List α) (n : Nat) (log : List Nat) :
    writeFragLoop h (l1 ++ l2) n log =
      match writeFragLoop h l1 n log with
      | Except.error e => Except.error e
      | Except.ok (n2, log2) => writeFragLoop h l2 n2 log2 := by
  induction l1 generalizing n log with
  | nil => rfl
  | cons x t ih =>
    show writeFragLoop h (x :: (t ++ l2)) n log = _
    by_cases hn : n % 1024 = 0
    · rcases hh : h n with e | u
      · simp [writeFragLoop, hn, hh]
      · simp only [writeFragLoop, hn, hh, if_true]
        exact ih (n + 1) (log ++ [n])
    · simp only [writeFragLoop, hn, if_false]
      exact ih (n + 1) log

/-- The per-chromosome writer loop equals the inner loop on the flattened
fragment list: the `total_fragments` counter runs across chromosomes. -/
theorem writeChrsLoop_flatten {α : Type} (h : Nat → Except String Unit)
    (cs : List (List α)) (n : Nat) (log : List Nat) :
    writeChrsLoop h cs n log = writeFragLoop h cs.flatten n log := by
  induction cs generalizing n log with
  | nil => rfl
  | cons c t ih =>
    show writeChrsLoop h (c :: t) n log = writeFragLoop h (c ++ t.flatten) n log
    rw [writeFragLoop_append]
    unfold writeChrsLoop
    cases writeFragLoop h c n log with
    | error e => rfl
    | ok p => exact ih p.1 p.2

/-- The inner writer loop with a never-raising hook: it delivers the final
counter and fires the hook exactly at the multiples of 1024 it passes. -/
theorem writeFragLoop_ok {α : Type} (h : Nat → Except String Unit)
    (fs : List α) : ∀ (n : Nat) (log : List Nat),
    (∀ v, n ≤ v → v < n + fs.length → v % 1024 = 0 → h v = Except.ok ()) →
    writeFragLoop h fs n log =
      Except.ok (n + fs.length,
        log ++ (List.range' n fs.length).filter (fun v => v % 1024 = 0)) := by
  induction fs with
  | nil => intro n log _; simp [writeFragLoop]
  | cons x t ih =>
    intro n log hok
    have hlen : (x :: t).length = t.length + 1 := List.length_cons x t
    unfold writeFragLoop
    have hrange : List.range' n (t.length + 1) = n :: List.range' (n + 1) t.length := rfl
    by_cases hn : n % 1024 = 0
    · rw [if_pos hn]
      have hx : h n = Except.ok () := hok n (Nat.le_refl n) (by omega) hn
      rw [hx]
      rw [ih (n + 1) (log ++ [n]) (fun v hv1 hv2 hv3 =>
        hok v (by omega) (by omega) hv3)]
      show _ = Except.ok (n + (t.length + 1), _)
      rw [List.length_cons, hrange]
      have : (n :: List.range' (n + 1) t.length).filter (fun v => v % 1024 = 0) =
          n :: (List.range' (n + 1) t.length).filter (fun v => v % 1024 = 0) := by
        simp [List.filter_cons, hn]
      rw [this]
      simp [Nat.add_comm, Nat.add_assoc, Nat.add_left_comm]
    · rw [if_neg hn]
      rw [ih (n + 1) log (fun v hv1 hv2 hv3 => hok v (by omega) (by omega) hv3)]
      rw [List.length_cons, hrange]
      have : (n :: List.range' (n + 1) t.length).filter (fun v => v % 1024 = 0) =
          (List.range' (n + 1) t.length).filter (fun v => v % 1024 = 0) := by
        simp [List.filter_cons, hn]
      rw [this]
      simp [Nat.add_comm, Nat.add_assoc, Nat.add_left_comm]

/-- The inner writer loop propagates the first hook error. -/
theorem writeFragLoop_err {α : Type} (h : Nat → Except String Unit)
    (fs : List α) : ∀ (n : Nat) (log : List Nat) (v : Nat) (e : String),
    n ≤ v → v < n + fs.length → v % 1024 = 0 → h v = Except.error e →
    (∀ u, n ≤ u → u < v → u % 1024 = 0 → h u = Except.ok ()) →
    writeFragLoop h fs n log = Except.error e := by
  induction fs with
  | nil =>
    intro n log v e h1 h2
    have hlen : ([] : List α).length = 0 := rfl
    omega
  | cons x t ih =>
    intro n log v e h1 h2 h3 h4 h5
    have hlen : (x :: t).length = t.length + 1 := List.length_cons x t
    unfold writeFragLoop
    by_cases hn : n % 1024 = 0
    · rw [if_pos hn]
      by_cases hv : v = n
      · rw [← hv, h4]
      · have hlt : n < v := by omega
        rw [h5 n (Nat.le_refl n) hlt hn]
        exact ih (n + 1) (log ++ [n]) v e (by omega) (by omega) h3 h4
          (fun u hu1 hu2 hu3 => h5 u (by omega) hu2 hu3)
    · rw [if_neg hn]
      have hv : v ≠ n := fun hvn => hn (hvn ▸ h3)
      exact ih (n + 1) log v e (by omega) (by omega) h3 h4
        (fun u hu1 hu2 hu3 => h5 u (by omega) hu2 hu3)

/-- C9: with a non-null hook, `BedFragmentsWriter::write` invokes the hook at
exactly the fragment counts that are multiples of 1024; hence it is invoked
on the first fragment, every window of 1024 consecutive fragments contains an
invocation, and a hook error propagates out of `write`. -/
theorem c9_write_interrupt_cadence {α : Type} (chrs : List (List α))
    (h : Nat → Except String Unit) :
    ((∀ v, v % 1024 = 0 → h v = Except.ok ()) →
      bedWriterWrite h chrs =
        Except.ok (chrs.flatten.length,
          (List.range chrs.flatten.length).filter (fun v => v % 1024 = 0)))
    ∧ (1 ≤ chrs.flatten.length →
      0 ∈ (List.range chrs.flatten.length).filter (fun v => v % 1024 = 0))
    ∧ (∀ k, k + 1024 ≤ chrs.flatten.length →
      ∃ v ∈ (List.range chrs.flatten.length).filter (fun v => v % 1024 = 0),
        k ≤ v ∧ v < k + 1024)
    ∧ (∀ v e, v % 1024 = 0 → v < chrs.flatten.length → h v = Except.error e →
      (∀ u, u < v → u % 1024 = 0 → h u = Except.ok ()) →
      bedWriterWrite h chrs = Except.error e) := by
  refine ⟨?_, ?_, ?_, ?_⟩
  · intro hok
    unfold bedWriterWrite
    rw [writeChrsLoop_flatten,
      writeFragLoop_ok h chrs.flatten 0 [] (fun v _ _ hv => hok v hv)]
    simp [List.range_eq_range']
  · intro hlen
    simp only [List.mem_filter, List.mem_range]
    exact ⟨by omega, by decide⟩
  · intro k hk
    have hdm := Nat.div_add_mod (k + 1023) 1024
    have hmlt : (k + 1023) % 1024 < 1024 := Nat.mod_lt _ (by omega)
    refine ⟨1024 * ((k + 1023) / 1024), ?_, by omega, by omega⟩
    simp only [List.mem_filter, List.mem_range]
    exact ⟨by omega, by simp [Nat.mul_mod_right]⟩
  · intro v e hv1 hv2 hv3 hv4
    unfold bedWriterWrite
    rw [writeChrsLoop_flatten]
    exact writeFragLoop_err h chrs.flatten 0 [] v e (Nat.zero_le v) (by omega)
      hv1 hv3 (fun u _ hu2 hu3 => hv4 u hu2 hu3)

/-- Witness for `c9_write_interrupt_cadence`: five fragments over two
chromosomes with a never-raising hook fire the hook exactly at count 0, and
a hook that raises at count 0 aborts the write with its error. -/
theorem c9_write_interrupt_cadence_witness :
    bedWriterWrite (fun _ => Except.ok ()) [[(), (), ()], [(), ()]] =
      Except.ok (([[(), (), ()], [(), ()]] : List (List Unit)).flatten.length,
        (List.range ([[(), (), ()], [(), ()]] : List (List Unit)).flatten.length).filter
          (fun v => v % 1024 = 0))
    ∧ bedWriterWrite (fun v => if v = 0 then Except.error "stop" else Except.ok ())
        [[(), ()]] = Except.error "stop" := by
  constructor
  · exact (c9_write_interrupt_cadence [[(), (), ()], [(), ()]]
      (fun _ => Except.ok ())).1 (fun _ _ => rfl)
  · exact (c9_write_interrupt_cadence [[(), ()]]
      (fun v => if v = 0 then Except.error "stop" else Except.ok ())).2.2.2 0 "stop"
      (by decide) (by decide) rfl (fun u hu _ => absurd hu (by omega))

/-! ### Helper lemmas for the BedFragments iteration -/

/-- Parsing a buffered line yields its fields and registers its barcode. -/
theorem parseLine_some (s : BedState) (l : BedLine) (h : s.lineBuf = some l) :
    ∃ cid, parseLine s =
      (l.chr, l.start, l.stop, cid, { s with cellNames := addCell s.cellNames l.cell }) := by
  unfold parseLine addCell
  rw [h]
  rcases hfi : s.cellNames.findIdx? (fun x => x == l.cell) with _ | i <;>
    simp only [hfi]
  · exact ⟨s.cellNames.length, rfl⟩
  · exact ⟨i, by rw [← h]⟩

/-- Parsing an empty buffer yields the empty chromosome name. -/
theorem parseLine_none (s : BedState) (h : s.lineBuf = none) :
    parseLine s = ("", 0, 0, 0, s) := by
  unfold parseLine
  rw [h]

/-- `chainLe` on a cons. -/
theorem chainLe_cons {v x : Nat} {xs : List Nat} :
    chainLe v (x :: xs) = true ↔ v ≤ x ∧ chainLe x xs = true := by
  simp [chainLe]

/-- `newLast` over an append runs the cursor through the first part. -/
theorem newLast_append (a : List BedLine) : ∀ (b : List BedLine) (v : Nat),
    newLast v (a ++ b) = newLast (newLast v a) b := by
  induction a with
  | nil => intro b v; rfl
  | cons x t ih => intro b v; exact ih b x.start

/-- `newLast` of a non-empty list is the start of its last line. -/
theorem newLast_eq_lastLine (ft : List BedLine) : ∀ (fh : BedLine) (v : Nat),
    newLast v (fh :: ft) = (lastLine fh ft).start := by
  induction ft with
  | nil => intro fh v; rfl
  | cons x t ih => intro fh v; exact ih x fh.start

/-- The last line is one of the lines. -/
theorem lastLine_mem (ft : List BedLine) : ∀ (fh : BedLine),
    lastLine fh ft ∈ fh :: ft := by
  induction ft with
  | nil => intro fh; exact List.mem_singleton.mpr rfl
  | cons x t ih =>
    intro fh
    exact List.mem_cons_of_mem fh (ih x)

/-- A sort chain survives taking a prefix and restarting the cursor after
it. -/
theorem chainLe_take_drop (front : List BedLine) : ∀ (n v : Nat),
    chainLe v (front.map BedLine.start) = true →
    chainLe (newLast v (front.take n)) ((front.drop n).map BedLine.start) = true := by
  induction front with
  | nil => intro n v _; simp [chainLe]
  | cons fh ft ih =>
    intro n v hch
    rcases n with _ | k
    · simpa using hch
    · rw [List.map_cons, chainLe_cons] at hch
      exact ih k fh.start hch.2

/-- `addCells` over a cons. -/
theorem addCells_cons (cn : List String) (l : BedLine) (ls : List BedLine) :
    addCells cn (l :: ls) = addCells (addCell cn l.cell) ls := rfl

/-- `addCells` over an append. -/
theorem addCells_append (a : List BedLine) : ∀ (b : List BedLine) (cn : List String),
    addCells cn (a ++ b) = addCells (addCells cn a) b := by
  induction a with
  | nil => intro b cn; rfl
  | cons x t ih => intro b cn; exact ih b (addCell cn x.cell)

/-- One chromosome block's lines all carry its chromosome name. -/
theorem blockLines_chr (b : ChrBlock) : ∀ l ∈ blockLines b, l.chr = b.chr := by
  intro l hl
  unfold blockLines at hl
  rcases List.mem_map.mp hl with ⟨f, _, rfl⟩
  rfl

/-- `linesOf` over a cons of blocks. -/
theorem linesOf_cons (b : ChrBlock) (bs : List ChrBlock) :
    linesOf (b :: bs) = blockLines b ++ linesOf bs := by
  simp [linesOf]

/-- Each block contributes at most the whole file's lines. -/
theorem blockLines_length_le (blocks : List ChrBlock) :
    ∀ b ∈ blocks, (blockLines b).length ≤ (linesOf blocks).length := by
  induction blocks with
  | nil => intro b hb; simp at hb
  | cons x t ih =>
    intro b hb
    rw [linesOf_cons, List.length_append]
    rcases List.mem_cons.mp hb with rfl | hb
    · omega
    · have := ih b hb
      omega

/-- A non-empty file puts its first line in the buffer with empty tables. -/
theorem initBed_eq_mkFresh (l : BedLine) (ls : List BedLine) :
    initBed (l :: ls) = mkFresh (l :: ls) "" 0 [] [] := rfl

/-- `load` on the stale end-of-file state (eof recorded, buffer still holding
the already-delivered last line): the stale duplicate is parsed once more
(its barcode re-registered, the tie passing the sort check) and then
discarded when `read_line` reports the end of file — no fragment is
delivered. -/
theorem loadLoop_stale (cap1 : Nat) (l : BedLine) (c : String)
    (chrN cellN : List String) (acc : List BedLine)
    (hlc : l.chr = c) (hc : c ≠ "") :
    loadLoop (cap1 + 1) (mkStale l c chrN cellN) acc =
      Except.ok (acc, mkDone c l.start chrN (addCell cellN l.cell)) := by
  obtain ⟨cid, hp⟩ := parseLine_some (mkStale l c chrN cellN) l rfl
  have hcond : ¬(l.chr = "" ∨ l.chr ≠ c) := by
    rw [hlc]
    simp [hc]
  simp only [loadLoop, mkStale] at hp ⊢
  rw [hp]
  simp [hcond, readLine, mkDone]

/-- `load` on a state whose buffer is exhausted returns no fragments and
leaves the state unchanged. -/
theorem loadLoop_noBuf (cap : Nat) (s : BedState) (acc : List BedLine)
    (h : s.lineBuf = none) :
    loadLoop cap s acc = Except.ok (acc, s) := by
  rcases cap with _ | cap1
  · rfl
  · simp only [loadLoop, h, parseLine_none s h]

/-- One `load` iteration on a fresh state whose buffered line belongs to the
current chromosome and respects the sort order: the line is stored, the
cursor advances, and the next line is read — leaving a fresh state, or the
stale end-of-file state when no line remains. -/
theorem loadLoop_step (cap1 : Nat) (l : BedLine) (p : List BedLine)
    (c : String) (v : Nat) (chrN cellN : List String) (acc : List BedLine)
    (hlc : l.chr = c) (hc : c ≠ "") (hv : v ≤ l.start) :
    loadLoop (cap1 + 1) (mkFresh (l :: p) c v chrN cellN) acc =
      match p with
      | _ :: _ =>
        loadLoop cap1 (mkFresh p c l.start chrN (addCell cellN l.cell)) (acc ++ [l])
      | [] =>
        loadLoop cap1 (mkStale l c chrN (addCell cellN l.cell)) (acc ++ [l]) := by
  obtain ⟨cid, hp⟩ := parseLine_some (mkFresh (l :: p) c v chrN cellN) l rfl
  have hcond : ¬(l.chr = "" ∨ l.chr ≠ c) := by
    rw [hlc]
    simp [hc]
  simp only [loadLoop, mkFresh, List.head?_cons, List.tail_cons] at hp ⊢
  rw [hp]
  rcases p with _ | ⟨x, xs⟩
  · simp [hcond, Nat.not_lt.mpr hv, readLine, mkStale]
  · simp [hcond, Nat.not_lt.mpr hv, readLine, mkFresh]

/-- One `load` iteration on a fresh state whose buffered line belongs to a
different chromosome: nothing further is delivered, but the line's barcode
has been registered by the parse. -/
theorem loadLoop_mismatch (cap1 : Nat) (r : BedLine) (p : List BedLine)
    (c : String) (v : Nat) (chrN cellN : List String) (acc : List BedLine)
    (hrc : r.chr ≠ c) :
    loadLoop (cap1 + 1) (mkFresh (r :: p) c v chrN cellN) acc =
      Except.ok (acc, mkFresh (r :: p) c v chrN (addCell cellN r.cell)) := by
  obtain ⟨cid, hp⟩ := parseLine_some (mkFresh (r :: p) c v chrN cellN) r rfl
  have hcond : r.chr = "" ∨ r.chr ≠ c := Or.inr hrc
  simp only [loadLoop, mkFresh, List.head?_cons, List.tail_cons] at hp ⊢
  rw [hp]
  simp [hcond, mkFresh]

/-- One `load` iteration on a fresh state whose buffered line belongs to the
current chromosome but has a descending start: the sort error is raised. -/
theorem loadLoop_sortviol (cap1 : Nat) (y : BedLine) (p : List BedLine)
    (c : String) (v : Nat) (chrN cellN : List String) (acc : List BedLine)
    (hyc : y.chr = c) (hc : c ≠ "") (hlt : y.start < v) :
    loadLoop (cap1 + 1) (mkFresh (y :: p) c v chrN cellN) acc =
      Except.error BedErr.sortErr := by
  obtain ⟨cid, hp⟩ := parseLine_some (mkFresh (y :: p) c v chrN cellN) y rfl
  have hcond : ¬(y.chr = "" ∨ y.chr ≠ c) := by
    rw [hyc]
    simp [hc]
  simp only [loadLoop, mkFresh, List.head?_cons, List.tail_cons] at hp ⊢
  rw [hp]
  simp [hcond, hlt]

/-- `loadLoop_step` specialised to a non-empty remaining stream. -/
theorem loadLoop_step_more (cap1 : Nat) (l : BedLine) (p : List BedLine)
    (c : String) (v : Nat) (chrN cellN : List String) (acc : List BedLine)
    (hlc : l.chr = c) (hc : c ≠ "") (hv : v ≤ l.start) (hp : p ≠ []) :
    loadLoop (cap1 + 1) (mkFresh (l :: p) c v chrN cellN) acc =
      loadLoop cap1 (mkFresh p c l.start chrN (addCell cellN l.cell)) (acc ++ [l]) := by
  rcases p with _ | ⟨x, xs⟩
  · exact absurd rfl hp
  · exact loadLoop_step cap1 l (x :: xs) c v chrN cellN acc hlc hc hv

/-- `loadLoop_step` specialised to the final line of the file: the store
succeeds and the failed read leaves the stale state. -/
theorem loadLoop_step_last (cap1 : Nat) (l : BedLine)
    (c : String) (v : Nat) (chrN cellN : List String) (acc : List BedLine)
    (hlc : l.chr = c) (hc : c ≠ "") (hv : v ≤ l.start) :
    loadLoop (cap1 + 1) (mkFresh [l] c v chrN cellN) acc =
      loadLoop cap1 (mkStale l c chrN (addCell cellN l.cell)) (acc ++ [l]) :=
  loadLoop_step cap1 l [] c v chrN cellN acc hlc hc hv

/-- The behaviour of one `load` call on a fresh mid-chromosome state whose
pending stream is a run `front` of current-chromosome lines (sorted,
continuing cursor `v`) followed by `restL`.  The five conjuncts cover:
capacity running out inside the run; the run ending exactly at the end of
file (stale buffer left behind); a different-chromosome line stopping the
call with its barcode peeked; the run ending at the end of file with
capacity to spare (the stale duplicate parsed once more and discarded);
and a same-chromosome descending start raising the sort error. -/
theorem loadLoop_chunk (front : List BedLine) :
    ∀ (cap : Nat) (restL : List BedLine) (c : String) (v : Nat)
      (chrN cellN : List String) (acc : List BedLine),
    (∀ l ∈ front, l.chr = c) → c ≠ "" →
    chainLe v (front.map BedLine.start) = true →
    ((cap ≤ front.length → (cap < front.length ∨ restL ≠ []) →
        loadLoop cap (mkFresh (front ++ restL) c v chrN cellN) acc =
          Except.ok (acc ++ front.take cap,
            mkFresh (front.drop cap ++ restL) c (newLast v (front.take cap)) chrN
              (addCells cellN (front.take cap))))
      ∧ (∀ fh ft, front = fh :: ft → cap = front.length → restL = [] →
        loadLoop cap (mkFresh (front ++ restL) c v chrN cellN) acc =
          Except.ok (acc ++ front,
            mkStale (lastLine fh ft) c chrN (addCells cellN front)))
      ∧ (∀ r rs, restL = r :: rs → r.chr ≠ c → front.length < cap →
        loadLoop cap (mkFresh (front ++ restL) c v chrN cellN) acc =
          Except.ok (acc ++ front,
            mkFresh restL c (newLast v front) chrN
              (addCell (addCells cellN front) r.cell)))
      ∧ (∀ fh ft, front = fh :: ft → restL = [] → front.length < cap →
        loadLoop cap (mkFresh (front ++ restL) c v chrN cellN) acc =
          Except.ok (acc ++ front,
            mkDone c (newLast v front) chrN
              (addCell (addCells cellN front) (lastLine fh ft).cell)))
      ∧ (∀ y ys, restL = y :: ys → y.chr = c → y.start < newLast v front →
          front.length < cap →
        loadLoop cap (mkFresh (front ++ restL) c v chrN cellN) acc =
          Except.error BedErr.sortErr)) := by
  induction front with
  | nil =>
    intro cap restL c v chrN cellN acc hchr hc hch
    refine ⟨?_, ?_, ?_, ?_, ?_⟩
    · intro hcap hcond
      have hc0 : cap = 0 := by
        simpa using hcap
      subst hc0
      simp [loadLoop, newLast, addCells]
    · intro fh ft heq
      simp at heq
    · intro r rs hre hrc hlen
      subst hre
      rcases cap with _ | cap1
      · simp at hlen
      · have := loadLoop_mismatch cap1 r rs c v chrN cellN acc hrc
        simpa [newLast, addCells] using this
    · intro fh ft heq
      simp at heq
    · intro y ys hre hyc hlt hlen
      subst hre
      rcases cap with _ | cap1
      · simp at hlen
      · exact loadLoop_sortviol cap1 y ys c v chrN cellN acc hyc hc hlt
  | cons fh ft ih =>
    intro cap restL c v chrN cellN acc hchr hc hch
    have hfhc : fh.chr = c := hchr fh (by simp)
    rw [List.map_cons, chainLe_cons] at hch
    have hchr2 : ∀ l ∈ ft, l.chr = c := fun l hl => hchr l (List.mem_cons_of_mem fh hl)
    refine ⟨?_, ?_, ?_, ?_, ?_⟩
    · intro hcap hcond
      rcases cap with _ | cap1
      · simp [loadLoop, newLast, addCells]
      · by_cases hftr : ft ++ restL = []
        · rcases List.append_eq_nil.mp hftr with ⟨rfl, rfl⟩
          rcases hcond with h | h
          · rw [List.length_cons, List.length_nil] at h
            omega
          · exact absurd rfl h
        · rw [List.cons_append,
            loadLoop_step_more cap1 fh (ft ++ restL) c v chrN cellN acc hfhc hc hch.1 hftr,
            (ih cap1 restL c fh.start chrN (addCell cellN fh.cell) (acc ++ [fh])
              hchr2 hc hch.2).1
              (by rw [List.length_cons] at hcap; omega)
              (by rcases hcond with h | h
                  · exact Or.inl (by rw [List.length_cons] at h; omega)
                  · exact Or.inr h)]
          simp [List.take_succ_cons, List.drop_succ_cons, newLast, addCells_cons]
    · intro fh2 ft2 heq hcap hre
      subst hre
      rcases heq with ⟨rfl, rfl⟩
      rw [List.length_cons] at hcap
      rcases cap with _ | cap1
      · omega
      · have hcap1 : cap1 = ft.length := by omega
        rcases hft : ft with _ | ⟨x, xs⟩
        · subst hft
          rw [List.length_nil] at hcap1
          subst hcap1
          rw [show (([fh] : List BedLine) ++ []) = [fh] by simp,
            loadLoop_step_last 0 fh c v chrN cellN acc hfhc hc hch.1]
          simp [loadLoop, lastLine, addCells]
        · subst hft
          rw [List.length_cons] at hcap1
          subst hcap1
          rw [List.cons_append,
            loadLoop_step_more (xs.length + 1) fh ((x :: xs) ++ []) c v chrN cellN acc
              hfhc hc hch.1 (by simp),
            (ih (xs.length + 1) [] c fh.start chrN (addCell cellN fh.cell) (acc ++ [fh])
              hchr2 hc hch.2).2.1 x xs rfl (by simp) rfl]
          simp [lastLine, addCells_cons]
    · intro r rs hre hrc hlen
      subst hre
      rcases cap with _ | cap1
      · simp at hlen
      · have hftr : ft ++ r :: rs ≠ [] := by simp
        rw [List.cons_append,
          loadLoop_step_more cap1 fh (ft ++ r :: rs) c v chrN cellN acc hfhc hc hch.1 hftr,
          (ih cap1 (r :: rs) c fh.start chrN (addCell cellN fh.cell) (acc ++ [fh])
            hchr2 hc hch.2).2.2.1 r rs rfl hrc
            (by rw [List.length_cons] at hlen; omega)]
        simp [newLast, addCells_cons]
    · intro fh2 ft2 heq hre hlen
      subst hre
      rcases heq with ⟨rfl, rfl⟩
      rw [List.length_cons] at hlen
      rcases cap with _ | cap1
      · omega
      · rcases hft : ft with _ | ⟨x, xs⟩
        · subst hft
          have hcap1 : 1 ≤ cap1 := by
            rw [List.length_nil] at hlen
            omega
          rcases cap1 with _ | cap2
          · omega
          · rw [show (([fh] : List BedLine) ++ []) = [fh] by simp,
              loadLoop_step_last (cap2 + 1) fh c v chrN cellN acc hfhc hc hch.1,
              loadLoop_stale cap2 fh c chrN (addCell cellN fh.cell) (acc ++ [fh]) hfhc hc]
            simp [newLast, lastLine, addCells]
        · subst hft
          rw [List.cons_append,
            loadLoop_step_more cap1 fh ((x :: xs) ++ []) c v chrN cellN acc
              hfhc hc hch.1 (by simp),
            (ih cap1 [] c fh.start chrN (addCell cellN fh.cell) (acc ++ [fh])
              hchr2 hc hch.2).2.2.2.1 x xs rfl rfl
              (by rw [List.length_cons] at hlen ⊢; omega)]
          simp [newLast, lastLine, addCells_cons]
    · intro y ys hre hyc hlt hlen
      subst hre
      rcases cap with _ | cap1
      · simp at hlen
      · have hftr : ft ++ y :: ys ≠ [] := by simp
        rw [List.cons_append,
          loadLoop_step_more cap1 fh (ft ++ y :: ys) c v chrN cellN acc hfhc hc hch.1 hftr]
        exact (ih cap1 (y :: ys) c fh.start chrN (addCell cellN fh.cell) (acc ++ [fh])
          hchr2 hc hch.2).2.2.2.2 y ys rfl hyc (by simpa [newLast] using hlt)
          (by rw [List.length_cons] at hlen; omega)

/-- One `drainChr` round whose `load` delivers nothing stops the loop. -/
theorem drainChr_stop (f cap : Nat) (s s1 : BedState)
    (h : load cap s = Except.ok ([], s1)) :
    drainChr (f + 1) cap s = Except.ok ([], s1) := by
  simp only [drainChr, h]

/-- One `drainChr` round whose `load` delivers fragments prepends them to
the rest of the drain. -/
theorem drainChr_go (f cap : Nat) (s s1 s2 : BedState) (x : BedLine)
    (xs rest : List BedLine)
    (h : load cap s = Except.ok (x :: xs, s1))
    (h2 : drainChr f cap s1 = Except.ok (rest, s2)) :
    drainChr (f + 1) cap s = Except.ok ((x :: xs) ++ rest, s2) := by
  simp only [drainChr, h, h2]

/-- A failing `load` fails the drain. -/
theorem drainChr_err (f cap : Nat) (s : BedState) (e : BedErr)
    (h : load cap s = Except.error e) :
    drainChr (f + 1) cap s = Except.error e := by
  simp only [drainChr, h]

/-- A failing recursive drain fails the drain. -/
theorem drainChr_go_err (f cap : Nat) (s s1 : BedState) (x : BedLine)
    (xs : List BedLine) (e : BedErr)
    (h : load cap s = Except.ok (x :: xs, s1))
    (h2 : drainChr f cap s1 = Except.error e) :
    drainChr (f + 1) cap s = Except.error e := by
  simp only [drainChr, h, h2]

/-- Draining one chromosome from a fresh state delivers every line of the
current-chromosome run `front` exactly once, in order, and stops with the
boundary line freshly buffered (bullet one: a different chromosome ahead),
with nothing pending at all (bullet two), or in the terminal end-of-file
state (bullet three: the run ended the file; the stale duplicate was parsed
once more and discarded on the way). -/
theorem drainChr_chunked (fuel : Nat) :
    ∀ (front restL : List BedLine) (c : String) (v : Nat)
      (chrN cellN : List String) (cap : Nat),
    (∀ l ∈ front, l.chr = c) → c ≠ "" →
    chainLe v (front.map BedLine.start) = true →
    1 ≤ cap → front.length + 2 ≤ fuel →
    ((∀ r rs, restL = r :: rs → r.chr ≠ c →
        ∃ cn2, drainChr fuel cap (mkFresh (front ++ restL) c v chrN cellN) =
          Except.ok (front, mkFresh restL c (newLast v front) chrN cn2))
      ∧ (restL = [] → front = [] →
        drainChr fuel cap (mkFresh (front ++ restL) c v chrN cellN) =
          Except.ok ([], mkFresh [] c v chrN cellN))
      ∧ (∀ fh ft, restL = [] → front = fh :: ft →
        ∃ cn2, drainChr fuel cap (mkFresh (front ++ restL) c v chrN cellN) =
          Except.ok (front, mkDone c (newLast v front) chrN cn2))) := by
  induction fuel with
  | zero =>
    intro front restL c v chrN cellN cap _ _ _ _ hf
    omega
  | succ f ihf =>
    intro front restL c v chrN cellN cap hchr hc hch hcap hfuel
    refine ⟨?_, ?_, ?_⟩
    · intro r rs hre hrc
      subst hre
      by_cases hcl : cap ≤ front.length
      · -- capacity runs out inside the run; recurse on the rest of the run
        have hfr : front ≠ [] := by
          intro h
          rw [h] at hcl
          simp at hcl
          omega
        have hload := (loadLoop_chunk front cap (r :: rs) c v chrN cellN []
          hchr hc hch).1 hcl (Or.inr (by simp))
        rw [List.nil_append] at hload
        rcases htk : front.take cap with _ | ⟨t0, ts⟩
        · rcases front with _ | ⟨f0, fs⟩
          · exact absurd rfl hfr
          · rcases cap with _ | cap1
            · omega
            · rw [List.take_succ_cons] at htk
              cases htk
        · obtain ⟨cn2, hdr⟩ := (ihf (front.drop cap) (r :: rs) c
            (newLast v (front.take cap)) chrN (addCells cellN (front.take cap)) cap
            (fun l hl => hchr l (List.drop_subset cap front hl)) hc
            (chainLe_take_drop front cap v hch) hcap
            (by rw [List.length_drop]; omega)).1 r rs rfl hrc
          rw [htk] at hload hdr
          refine ⟨cn2, ?_⟩
          rw [drainChr_go f cap _ _ _ t0 ts _ hload hdr, ← htk,
            List.take_append_drop, ← newLast_append, List.take_append_drop]
      · -- the whole run is delivered in one call, the boundary line peeked
        have hlen : front.length < cap := by omega
        have hload := (loadLoop_chunk front cap (r :: rs) c v chrN cellN []
          hchr hc hch).2.2.1 r rs rfl hrc hlen
        rw [List.nil_append] at hload
        rcases hfr : front with _ | ⟨f0, fs⟩
        · subst hfr
          exact ⟨addCell (addCells cellN []) r.cell, drainChr_stop f cap _ _ hload⟩
        · subst hfr
          obtain ⟨cn3, hdr⟩ := (ihf [] (r :: rs) c
            (newLast v (f0 :: fs)) chrN (addCell (addCells cellN (f0 :: fs)) r.cell) cap
            (by intro l hl; simp at hl) hc (by simp [chainLe]) hcap
            (by simp only [List.length_nil]
                simp only [List.length_cons] at hfuel
                omega)).1 r rs rfl hrc
          rw [List.nil_append] at hdr
          refine ⟨cn3, ?_⟩
          rw [drainChr_go f cap _ _ _ f0 fs _ hload hdr,
            show newLast (newLast v (f0 :: fs)) [] = newLast v (f0 :: fs) from rfl,
            List.append_nil]
    · intro hre hfr
      subst hre
      subst hfr
      exact drainChr_stop f cap _ _ (loadLoop_noBuf cap _ [] rfl)
    · intro fh ft hre hfr
      subst hre
      subst hfr
      rcases Nat.lt_trichotomy cap (fh :: ft).length with hcl | hcl | hcl
      · -- capacity runs out inside the run
        have hload := (loadLoop_chunk (fh :: ft) cap [] c v chrN cellN []
          hchr hc hch).1 (by omega) (Or.inl hcl)
        rw [List.nil_append] at hload
        rcases htk : (fh :: ft).take cap with _ | ⟨t0, ts⟩
        · rcases cap with _ | cap1
          · omega
          · rw [List.take_succ_cons] at htk
            cases htk
        · rcases hdp : (fh :: ft).drop cap with _ | ⟨d0, ds⟩
          · have h0 := congrArg List.length hdp
            rw [List.length_drop] at h0
            simp only [List.length_cons, List.length_nil] at h0 hcl
            omega
          · obtain ⟨cn2, hdr⟩ := (ihf ((fh :: ft).drop cap) [] c
              (newLast v ((fh :: ft).take cap)) chrN (addCells cellN ((fh :: ft).take cap)) cap
              (fun l hl => hchr l (List.drop_subset cap (fh :: ft) hl)) hc
              (chainLe_take_drop (fh :: ft) cap v hch) hcap
              (by rw [List.length_drop]; omega)).2.2 d0 ds rfl hdp
            rw [htk] at hload hdr
            refine ⟨cn2, ?_⟩
            rw [drainChr_go f cap _ _ _ t0 ts _ hload hdr, ← htk,
              List.take_append_drop, ← newLast_append, List.take_append_drop]
      · -- capacity exactly the run: the stale state is left, and the next
        -- load call discards the duplicate
        have hload := (loadLoop_chunk (fh :: ft) cap [] c v chrN cellN []
          hchr hc hch).2.1 fh ft rfl hcl rfl
        rw [List.nil_append] at hload
        have hlastc : (lastLine fh ft).chr = c := hchr _ (lastLine_mem ft fh)
        rcases cap with _ | cap1
        · omega
        · rcases f with _ | f2
          · simp only [List.length_cons] at hfuel
            omega
          · refine ⟨addCell (addCells cellN (fh :: ft)) (lastLine fh ft).cell, ?_⟩
            have hstale : drainChr (f2 + 1) (cap1 + 1)
                (mkStale (lastLine fh ft) c chrN (addCells cellN (fh :: ft))) =
                Except.ok ([], mkDone c (lastLine fh ft).start chrN
                  (addCell (addCells cellN (fh :: ft)) (lastLine fh ft).cell)) :=
              drainChr_stop f2 (cap1 + 1) _ _
                (loadLoop_stale cap1 (lastLine fh ft) c chrN
                  (addCells cellN (fh :: ft)) [] hlastc hc)
            rw [drainChr_go (f2 + 1) (cap1 + 1) _ _ _ fh ft _ hload hstale,
              show (lastLine fh ft).start = newLast v (fh :: ft) from
                (newLast_eq_lastLine ft fh v).symm,
              List.append_nil]
      · -- capacity to spare: the load call itself ends in the terminal state
        have hload := (loadLoop_chunk (fh :: ft) cap [] c v chrN cellN []
          hchr hc hch).2.2.2.1 fh ft rfl rfl hcl
        rw [List.nil_append] at hload
        rcases f with _ | f2
        · simp only [List.length_cons] at hfuel
          omega
        · refine ⟨addCell (addCells cellN (fh :: ft)) (lastLine fh ft).cell, ?_⟩
          have hdone : drainChr (f2 + 1) cap
              (mkDone c (newLast v (fh :: ft)) chrN
                (addCell (addCells cellN (fh :: ft)) (lastLine fh ft).cell)) =
              Except.ok ([], mkDone c (newLast v (fh :: ft)) chrN
                (addCell (addCells cellN (fh :: ft)) (lastLine fh ft).cell)) :=
            drainChr_stop f2 cap _ _ (loadLoop_noBuf cap _ [] rfl)
          rw [drainChr_go (f2 + 1) cap _ _ _ fh ft _ hload hdone, List.append_nil]

/-- Draining a chromosome whose run is followed by a same-chromosome line
with a descending start raises the sort error. -/
theorem drainChr_violate (fuel : Nat) :
    ∀ (front : List BedLine) (y : BedLine) (ys : List BedLine) (c : String)
      (v : Nat) (chrN cellN : List String) (cap : Nat),
    (∀ l ∈ front, l.chr = c) → c ≠ "" →
    chainLe v (front.map BedLine.start) = true →
    y.chr = c → y.start < newLast v front → 1 ≤ cap → front.length + 1 ≤ fuel →
    drainChr fuel cap (mkFresh (front ++ y :: ys) c v chrN cellN) =
      Except.error BedErr.sortErr := by
  induction fuel with
  | zero =>
    intro front y ys c v chrN cellN cap _ _ _ _ _ _ hf
    omega
  | succ f ihf =>
    intro front y ys c v chrN cellN cap hchr hc hch hyc hlt hcap hfuel
    by_cases hcl : cap ≤ front.length
    · have hload := (loadLoop_chunk front cap (y :: ys) c v chrN cellN []
        hchr hc hch).1 hcl (Or.inr (by simp))
      rw [List.nil_append] at hload
      have hfr : front ≠ [] := by
        intro h
        rw [h] at hcl
        simp at hcl
        omega
      rcases htk : front.take cap with _ | ⟨t0, ts⟩
      · rcases front with _ | ⟨f0, fs⟩
        · exact absurd rfl hfr
        · rcases cap with _ | cap1
          · omega
          · rw [List.take_succ_cons] at htk
            cases htk
      · have hdr := ihf (front.drop cap) y ys c
          (newLast v (front.take cap)) chrN (addCells cellN (front.take cap)) cap
          (fun l hl => hchr l (List.drop_subset cap front hl)) hc
          (chainLe_take_drop front cap v hch) hyc
          (by rw [← newLast_append, List.take_append_drop]
              exact hlt) hcap
          (by rw [List.length_drop]; omega)
        rw [htk] at hload hdr
        exact drainChr_go_err f cap _ _ t0 ts _ hload hdr
    · have hload := (loadLoop_chunk front cap (y :: ys) c v chrN cellN []
        hchr hc hch).2.2.2.2 y ys rfl hyc hlt (by omega)
      exact drainChr_err f cap _ _ hload

/-- `nextChr` on an exhausted buffer reports the end of the stream. -/
theorem nextChr_none (f : Nat) (s : BedState) (h : s.lineBuf = none) :
    nextChr f s = Except.ok (false, s) := by
  unfold nextChr
  rw [h]

/-- `nextChr` on a fresh state whose buffered line opens a new, unseen
chromosome: the skip loop breaks at once, the chromosome is registered and
the sort cursor reset; the buffered line is not consumed (only its barcode
is registered by the dummy parse). -/
theorem nextChr_fresh (f : Nat) (pending : List BedLine) (l : BedLine)
    (c0 : String) (v : Nat) (chrN cellN : List String)
    (hhead : pending.head? = some l)
    (hne : l.chr ≠ c0) (hnotin : l.chr ∉ chrN) :
    nextChr (f + 1) (mkFresh pending c0 v chrN cellN) =
      Except.ok (true,
        mkFresh pending l.chr 0 (chrN ++ [l.chr]) (addCell cellN l.cell)) := by
  obtain ⟨cid, hp⟩ := parseLine_some (mkFresh pending c0 v chrN cellN) l hhead
  have hcond : l.chr = "" ∨ l.chr ≠ c0 := Or.inr hne
  unfold nextChr nextChrLoop
  rw [show (mkFresh pending c0 v chrN cellN).lineBuf = some l from hhead, hp]
  simp only [mkFresh] at hp ⊢
  simp [hcond, hnotin, mkFresh]

/-- `nextChr` on a fresh state whose buffered line re-enters a chromosome
registered earlier: the `chr_lookup` emplace fails and the sort error is
raised. -/
theorem nextChr_reenter (f : Nat) (pending : List BedLine) (l : BedLine)
    (c0 : String) (v : Nat) (chrN cellN : List String)
    (hhead : pending.head? = some l)
    (hne : l.chr ≠ c0) (hin : l.chr ∈ chrN) :
    nextChr (f + 1) (mkFresh pending c0 v chrN cellN) =
      Except.error BedErr.sortErr := by
  obtain ⟨cid, hp⟩ := parseLine_some (mkFresh pending c0 v chrN cellN) l hhead
  have hcond : l.chr = "" ∨ l.chr ≠ c0 := Or.inr hne
  unfold nextChr nextChrLoop
  rw [show (mkFresh pending c0 v chrN cellN).lineBuf = some l from hhead, hp]
  simp only [mkFresh] at hp ⊢
  simp [hcond, hin]

/-- A `nextChr` returning false ends the run with nothing delivered. -/
theorem runBed_false (g f cap : Nat) (s s1 : BedState)
    (h : nextChr f s = Except.ok (false, s1)) :
    runBed (g + 1) f cap s = Except.ok ([], s1) := by
  simp only [runBed, h]

/-- A failing `nextChr` fails the run. -/
theorem runBed_nextErr (g f cap : Nat) (s : BedState) (e : BedErr)
    (h : nextChr f s = Except.error e) :
    runBed (g + 1) f cap s = Except.error e := by
  simp only [runBed, h]

/-- One full chromosome round of the run. -/
theorem runBed_go (g f cap : Nat) (s s1 s2 s3 : BedState)
    (frags rest : List BedLine)
    (h1 : nextChr f s = Except.ok (true, s1))
    (h2 : drainChr f cap s1 = Except.ok (frags, s2))
    (h3 : runBed g f cap s2 = Except.ok (rest, s3)) :
    runBed (g + 1) f cap s = Except.ok (frags ++ rest, s3) := by
  simp only [runBed, h1, h2, h3]

/-- A failing drain fails the run. -/
theorem runBed_drainErr (g f cap : Nat) (s s1 : BedState) (e : BedErr)
    (h1 : nextChr f s = Except.ok (true, s1))
    (h2 : drainChr f cap s1 = Except.error e) :
    runBed (g + 1) f cap s = Except.error e := by
  simp only [runBed, h1, h2]

/-- A failing recursive run fails the run. -/
theorem runBed_recErr (g f cap : Nat) (s s1 s2 : BedState)
    (frags : List BedLine) (e : BedErr)
    (h1 : nextChr f s = Except.ok (true, s1))
    (h2 : drainChr f cap s1 = Except.ok (frags, s2))
    (h3 : runBed g f cap s2 = Except.error e) :
    runBed (g + 1) f cap s = Except.error e := by
  simp only [runBed, h1, h2, h3]

/-- `linesOf` of no blocks. -/
theorem linesOf_nil : linesOf [] = [] := rfl

/-- The full iteration over a well-formed blocked file, from any fresh entry
state whose chromosome tables do not yet know the file's chromosomes:
every data line is delivered exactly once, in file order. -/
theorem runBed_blocks (blocks : List ChrBlock) :
    ∀ (g f cap : Nat) (c0 : String) (v : Nat) (chrN cellN : List String),
    (∀ b ∈ blocks, wfBlock b) → (blocks.map ChrBlock.chr).Nodup →
    (∀ b ∈ blocks, b.chr ∉ chrN) → (c0 = "" ∨ c0 ∈ chrN) →
    1 ≤ cap → (∀ b ∈ blocks, (blockLines b).length + 2 ≤ f) → 1 ≤ f →
    blocks.length + 1 ≤ g →
    ∃ s2, runBed g f cap (mkFresh (linesOf blocks) c0 v chrN cellN) =
      Except.ok (linesOf blocks, s2) := by
  induction blocks with
  | nil =>
    intro g f cap c0 v chrN cellN _ _ _ _ _ _ _ hg
    rcases g with _ | g0
    · omega
    · exact ⟨_, runBed_false g0 f cap _ _ (nextChr_none f _ rfl)⟩
  | cons b bs ih =>
    intro g f cap c0 v chrN cellN hwf hnd hnotin hc0 hcap hfb hf hg
    obtain ⟨hbne, hbfr, hbchain⟩ := hwf b (List.mem_cons_self b bs)
    rcases g with _ | g0
    · omega
    rcases f with _ | f0
    · omega
    rcases hfrags : b.frags with _ | ⟨fr0, frs⟩
    · exact absurd hfrags hbfr
    have hbl : blockLines b = ⟨b.chr, fr0.1, fr0.2.1, fr0.2.2⟩ :: frs.map
        (fun fr => ⟨b.chr, fr.1, fr.2.1, fr.2.2⟩) := by
      rw [blockLines, hfrags, List.map_cons]
    have hhead : (linesOf (b :: bs)).head? = some ⟨b.chr, fr0.1, fr0.2.1, fr0.2.2⟩ := by
      rw [linesOf_cons, hbl]
      rfl
    have hbc0 : (⟨b.chr, fr0.1, fr0.2.1, fr0.2.2⟩ : BedLine).chr ≠ c0 := by
      rcases hc0 with rfl | hc0
      · exact hbne
      · intro h
        have h2 : b.chr = c0 := h
        exact hnotin b (List.mem_cons_self b bs) (h2.symm ▸ hc0)
    have hnext := nextChr_fresh f0 (linesOf (b :: bs)) _ c0 v chrN cellN hhead hbc0
      (hnotin b (List.mem_cons_self b bs))
    have hdrargs : ∀ l ∈ blockLines b, l.chr = b.chr := blockLines_chr b
    have hnd2 := hnd
    rw [List.map_cons, List.nodup_cons] at hnd2
    rcases bs with _ | ⟨b2, bs2⟩
    · -- last block: the drain ends the file
      obtain ⟨cn2, hdr⟩ := (drainChr_chunked (f0 + 1) (blockLines b) (linesOf [])
        b.chr 0 (chrN ++ [b.chr]) (addCell cellN (⟨b.chr, fr0.1, fr0.2.1, fr0.2.2⟩ : BedLine).cell)
        cap hdrargs hbne hbchain hcap
        (hfb b (List.mem_cons_self b []))).2.2 _ _ linesOf_nil hbl
      rw [← linesOf_cons] at hdr
      rcases g0 with _ | g1
      · rw [List.length_cons] at hg
        omega
      have hrun : runBed (g1 + 1) (f0 + 1) cap
          (mkDone b.chr (newLast 0 (blockLines b)) (chrN ++ [b.chr]) cn2) =
          Except.ok ([], mkDone b.chr (newLast 0 (blockLines b)) (chrN ++ [b.chr]) cn2) :=
        runBed_false g1 (f0 + 1) cap _ _ (nextChr_none (f0 + 1) _ rfl)
      refine ⟨mkDone b.chr (newLast 0 (blockLines b)) (chrN ++ [b.chr]) cn2, ?_⟩
      rw [runBed_go (g1 + 1) (f0 + 1) cap _ _ _ _ (blockLines b) [] hnext hdr hrun,
        List.append_nil, linesOf_cons, linesOf_nil, List.append_nil]
    · -- more blocks follow: the drain stops at the boundary line
      obtain ⟨hq, hqs, hqchain⟩ := hwf b2 (List.mem_cons_of_mem b (List.mem_cons_self b2 bs2))
      rcases hfr2 : b2.frags with _ | ⟨q0, qs⟩
      · exact absurd hfr2 hqs
      have hbl2 : blockLines b2 = ⟨b2.chr, q0.1, q0.2.1, q0.2.2⟩ :: qs.map
          (fun fr => ⟨b2.chr, fr.1, fr.2.1, fr.2.2⟩) := by
        rw [blockLines, hfr2, List.map_cons]
      have hro : linesOf (b2 :: bs2) = (⟨b2.chr, q0.1, q0.2.1, q0.2.2⟩ : BedLine) ::
          (qs.map (fun fr => ⟨b2.chr, fr.1, fr.2.1, fr.2.2⟩) ++ linesOf bs2) := by
        rw [linesOf_cons, hbl2, List.cons_append]
      have hb2ne : (⟨b2.chr, q0.1, q0.2.1, q0.2.2⟩ : BedLine).chr ≠ b.chr := by
        intro h
        exact hnd2.1 (h ▸ List.mem_map_of_mem ChrBlock.chr (List.mem_cons_self b2 bs2))
      obtain ⟨cn2, hdr⟩ := (drainChr_chunked (f0 + 1) (blockLines b) (linesOf (b2 :: bs2))
        b.chr 0 (chrN ++ [b.chr]) (addCell cellN (⟨b.chr, fr0.1, fr0.2.1, fr0.2.2⟩ : BedLine).cell)
        cap hdrargs hbne hbchain hcap
        (hfb b (List.mem_cons_self b (b2 :: bs2)))).1 _ _ hro hb2ne
      rw [← linesOf_cons] at hdr
      obtain ⟨s3, hrun⟩ := ih g0 (f0 + 1) cap b.chr (newLast 0 (blockLines b))
        (chrN ++ [b.chr]) cn2
        (fun x hx => hwf x (List.mem_cons_of_mem b hx)) hnd2.2
        (by
          intro x hx
          rw [List.mem_append]
          rintro (h | h)
          · exact hnotin x (List.mem_cons_of_mem b hx) h
          · rw [List.mem_singleton] at h
            exact hnd2.1 (h ▸ List.mem_map_of_mem ChrBlock.chr hx))
        (Or.inr (by simp))
        hcap (fun x hx => hfb x (List.mem_cons_of_mem b hx)) hf
        (by rw [List.length_cons] at hg; omega)
      refine ⟨s3, ?_⟩
      rw [runBed_go g0 (f0 + 1) cap _ _ _ _ (blockLines b) (linesOf (b2 :: bs2))
        hnext hdr hrun, ← linesOf_cons]

/-- Iterating a file that is well-formed up to a fresh chromosome whose run
is followed by a same-chromosome line with a descending start raises the
sort error. -/
theorem runBed_desc_blocks (blocks : List ChrBlock) :
    ∀ (front : List BedLine) (y : BedLine) (ys : List BedLine)
      (g f cap : Nat) (c c0 : String) (v : Nat) (chrN cellN : List String),
    (∀ b ∈ blocks, wfBlock b) → (blocks.map ChrBlock.chr).Nodup →
    (∀ b ∈ blocks, b.chr ∉ chrN) → (c0 = "" ∨ c0 ∈ chrN) →
    c ≠ "" → c ∉ chrN → c ∉ blocks.map ChrBlock.chr →
    front ≠ [] → (∀ l ∈ front, l.chr = c) →
    chainLe 0 (front.map BedLine.start) = true →
    y.chr = c → y.start < newLast 0 front →
    1 ≤ cap → (∀ b ∈ blocks, (blockLines b).length + 2 ≤ f) →
    front.length + 1 ≤ f → 1 ≤ f → blocks.length + 1 ≤ g →
    runBed g f cap (mkFresh (linesOf blocks ++ (front ++ y :: ys)) c0 v chrN cellN) =
      Except.error BedErr.sortErr := by
  induction blocks with
  | nil =>
    intro front y ys g f cap c c0 v chrN cellN _ _ _ hc0 hcne hcnotin _ hfr hfchr
      hfch hyc hlt hcap _ hff hf hg
    rcases hfr2 : front with _ | ⟨l0, ls⟩
    · exact absurd hfr2 hfr
    subst hfr2
    rcases g with _ | g0
    · omega
    rcases f with _ | f0
    · omega
    have hl0c : l0.chr = c := hfchr l0 (List.mem_cons_self l0 ls)
    have hl0ne : l0.chr ≠ c0 := by
      rw [hl0c]
      rcases hc0 with rfl | hc0
      · exact hcne
      · intro h
        exact hcnotin (h ▸ hc0)
    have hl0notin : l0.chr ∉ chrN := by
      rw [hl0c]
      exact hcnotin
    have hnext := nextChr_fresh f0 (linesOf [] ++ ((l0 :: ls) ++ y :: ys)) l0
      c0 v chrN cellN rfl hl0ne hl0notin
    rw [hl0c] at hnext
    have hdr := drainChr_violate (f0 + 1) (l0 :: ls) y ys c 0 (chrN ++ [c])
      (addCell cellN l0.cell) cap hfchr hcne hfch hyc hlt hcap
      (by rw [List.length_cons] at hff ⊢; omega)
    rw [show linesOf [] ++ ((l0 :: ls) ++ y :: ys) = (l0 :: ls) ++ y :: ys from rfl]
      at hnext
    exact runBed_drainErr g0 (f0 + 1) cap _ _ BedErr.sortErr hnext hdr
  | cons b bs ih =>
    intro front y ys g f cap c c0 v chrN cellN hwf hnd hnotin hc0 hcne hcnotin
      hcblocks hfr hfchr hfch hyc hlt hcap hfb hff hf hg
    obtain ⟨hbne, hbfr, hbchain⟩ := hwf b (List.mem_cons_self b bs)
    rcases g with _ | g0
    · omega
    rcases f with _ | f0
    · omega
    rcases hfrags : b.frags with _ | ⟨fr0, frs⟩
    · exact absurd hfrags hbfr
    have hbl : blockLines b = ⟨b.chr, fr0.1, fr0.2.1, fr0.2.2⟩ :: frs.map
        (fun fr => ⟨b.chr, fr.1, fr.2.1, fr.2.2⟩) := by
      rw [blockLines, hfrags, List.map_cons]
    have hstream : linesOf (b :: bs) ++ (front ++ y :: ys) =
        blockLines b ++ (linesOf bs ++ (front ++ y :: ys)) := by
      rw [linesOf_cons, List.append_assoc]
    have hhead : (linesOf (b :: bs) ++ (front ++ y :: ys)).head? =
        some ⟨b.chr, fr0.1, fr0.2.1, fr0.2.2⟩ := by
      rw [hstream, hbl]
      rfl
    have hbc0 : (⟨b.chr, fr0.1, fr0.2.1, fr0.2.2⟩ : BedLine).chr ≠ c0 := by
      rcases hc0 with rfl | hc0
      · exact hbne
      · intro h
        have h2 : b.chr = c0 := h
        exact hnotin b (List.mem_cons_self b bs) (h2.symm ▸ hc0)
    have hnext := nextChr_fresh f0 (linesOf (b :: bs) ++ (front ++ y :: ys)) _
      c0 v chrN cellN hhead hbc0 (hnotin b (List.mem_cons_self b bs))
    have hnd2 := hnd
    rw [List.map_cons, List.nodup_cons] at hnd2
    have hcb : c ≠ b.chr := by
      intro h
      exact hcblocks (h ▸ List.mem_map_of_mem ChrBlock.chr (List.mem_cons_self b bs))
    -- identify the boundary line that stops the drain of block b
    have hbound : ∃ r rs, linesOf bs ++ (front ++ y :: ys) = r :: rs ∧ r.chr ≠ b.chr := by
      rcases bs with _ | ⟨b2, bs2⟩
      · rcases hfr2 : front with _ | ⟨l0, ls⟩
        · exact absurd hfr2 hfr
        refine ⟨l0, ls ++ y :: ys, ?_, ?_⟩
        · rw [show linesOf [] ++ ((l0 :: ls) ++ y :: ys) =
            (l0 :: ls) ++ y :: ys from rfl, List.cons_append]
        · rw [hfchr l0 (by rw [hfr2]; exact List.mem_cons_self l0 ls)]
          exact hcb
      · obtain ⟨_, hqs, _⟩ := hwf b2 (List.mem_cons_of_mem b (List.mem_cons_self b2 bs2))
        rcases hfr2 : b2.frags with _ | ⟨q0, qs⟩
        · exact absurd hfr2 hqs
        refine ⟨⟨b2.chr, q0.1, q0.2.1, q0.2.2⟩,
          qs.map (fun fr => ⟨b2.chr, fr.1, fr.2.1, fr.2.2⟩) ++
            (linesOf bs2 ++ (front ++ y :: ys)), ?_, ?_⟩
        · rw [linesOf_cons, blockLines, hfr2, List.map_cons, List.append_assoc,
            List.cons_append]
        · intro h
          have h2 : b2.chr = b.chr := h
          exact hnd2.1 (h2 ▸ List.mem_map_of_mem ChrBlock.chr (List.mem_cons_self b2 bs2))
    obtain ⟨r, rs, hre, hrne⟩ := hbound
    obtain ⟨cn2, hdr⟩ := (drainChr_chunked (f0 + 1) (blockLines b)
      (linesOf bs ++ (front ++ y :: ys)) b.chr 0 (chrN ++ [b.chr])
      (addCell cellN (⟨b.chr, fr0.1, fr0.2.1, fr0.2.2⟩ : BedLine).cell) cap
      (blockLines_chr b) hbne hbchain hcap
      (hfb b (List.mem_cons_self b bs))).1 r rs hre hrne
    rw [← hstream] at hdr
    have hrec := ih front y ys g0 (f0 + 1) cap c b.chr
      (newLast 0 (blockLines b)) (chrN ++ [b.chr]) cn2
      (fun x hx => hwf x (List.mem_cons_of_mem b hx)) hnd2.2
      (by
        intro x hx
        rw [List.mem_append]
        rintro (h | h)
        · exact hnotin x (List.mem_cons_of_mem b hx) h
        · rw [List.mem_singleton] at h
          exact hnd2.1 (h ▸ List.mem_map_of_mem ChrBlock.chr hx))
      (Or.inr (by simp))
      hcne
      (by
        rw [List.mem_append]
        rintro (h | h)
        · exact hcnotin h
        · rw [List.mem_singleton] at h
          exact hcb h)
      (by
        intro h
        exact hcblocks (List.mem_cons_of_mem _ h))
      hfr hfchr hfch hyc hlt hcap
      (fun x hx => hfb x (List.mem_cons_of_mem b hx)) hff hf
      (by rw [List.length_cons] at hg; omega)
    exact runBed_recErr g0 (f0 + 1) cap _ _ _ (blockLines b) BedErr.sortErr
      hnext hdr hrec

/-- Iterating a file whose chromosome blocks re-enter a chromosome that
appeared earlier (the re-entering line differing from the immediately
preceding chromosome) raises the sort error from `nextChr`. -/
theorem runBed_reenter_blocks (blocks : List ChrBlock) :
    ∀ (y : BedLine) (ys : List BedLine) (g f cap : Nat) (c0 : String)
      (v : Nat) (chrN cellN : List String),
    (∀ b ∈ blocks, wfBlock b) → (blocks.map ChrBlock.chr).Nodup →
    (∀ b ∈ blocks, b.chr ∉ chrN) → (c0 = "" ∨ c0 ∈ chrN) →
    (blocks = [] → y.chr ≠ c0) →
    (∀ pre bl, blocks = pre ++ [bl] → y.chr ≠ bl.chr) →
    y.chr ∈ chrN ++ blocks.map ChrBlock.chr →
    1 ≤ cap → (∀ b ∈ blocks, (blockLines b).length + 2 ≤ f) → 1 ≤ f →
    blocks.length + 1 ≤ g →
    runBed g f cap (mkFresh (linesOf blocks ++ y :: ys) c0 v chrN cellN) =
      Except.error BedErr.sortErr := by
  induction blocks with
  | nil =>
    intro y ys g f cap c0 v chrN cellN _ _ _ _ hadj0 _ hmem hcap _ hf hg
    rcases g with _ | g0
    · omega
    rcases f with _ | f0
    · omega
    have hin : y.chr ∈ chrN := by
      simpa using hmem
    exact runBed_nextErr g0 (f0 + 1) cap _ BedErr.sortErr
      (nextChr_reenter f0 (linesOf [] ++ y :: ys) y c0 v chrN cellN rfl
        (hadj0 rfl) hin)
  | cons b bs ih =>
    intro y ys g f cap c0 v chrN cellN hwf hnd hnotin hc0 _ hadj hmem hcap hfb hf hg
    obtain ⟨hbne, hbfr, hbchain⟩ := hwf b (List.mem_cons_self b bs)
    rcases g with _ | g0
    · omega
    rcases f with _ | f0
    · omega
    rcases hfrags : b.frags with _ | ⟨fr0, frs⟩
    · exact absurd hfrags hbfr
    have hbl : blockLines b = ⟨b.chr, fr0.1, fr0.2.1, fr0.2.2⟩ :: frs.map
        (fun fr => ⟨b.chr, fr.1, fr.2.1, fr.2.2⟩) := by
      rw [blockLines, hfrags, List.map_cons]
    have hstream : linesOf (b :: bs) ++ y :: ys =
        blockLines b ++ (linesOf bs ++ y :: ys) := by
      rw [linesOf_cons, List.append_assoc]
    have hhead : (linesOf (b :: bs) ++ y :: ys).head? =
        some ⟨b.chr, fr0.1, fr0.2.1, fr0.2.2⟩ := by
      rw [hstream, hbl]
      rfl
    have hbc0 : (⟨b.chr, fr0.1, fr0.2.1, fr0.2.2⟩ : BedLine).chr ≠ c0 := by
      rcases hc0 with rfl | hc0
      · exact hbne
      · intro h
        have h2 : b.chr = c0 := h
        exact hnotin b (List.mem_cons_self b bs) (h2.symm ▸ hc0)
    have hnext := nextChr_fresh f0 (linesOf (b :: bs) ++ y :: ys) _
      c0 v chrN cellN hhead hbc0 (hnotin b (List.mem_cons_self b bs))
    have hnd2 := hnd
    rw [List.map_cons, List.nodup_cons] at hnd2
    have hbound : ∃ r rs, linesOf bs ++ y :: ys = r :: rs ∧ r.chr ≠ b.chr := by
      rcases bs with _ | ⟨b2, bs2⟩
      · exact ⟨y, ys, rfl, hadj [] b rfl⟩
      · obtain ⟨_, hqs, _⟩ := hwf b2 (List.mem_cons_of_mem b (List.mem_cons_self b2 bs2))
        rcases hfr2 : b2.frags with _ | ⟨q0, qs⟩
        · exact absurd hfr2 hqs
        refine ⟨⟨b2.chr, q0.1, q0.2.1, q0.2.2⟩,
          qs.map (fun fr => ⟨b2.chr, fr.1, fr.2.1, fr.2.2⟩) ++
            (linesOf bs2 ++ y :: ys), ?_, ?_⟩
        · rw [linesOf_cons, blockLines, hfr2, List.map_cons, List.append_assoc,
            List.cons_append]
        · intro h
          have h2 : b2.chr = b.chr := h
          exact hnd2.1 (h2 ▸ List.mem_map_of_mem ChrBlock.chr (List.mem_cons_self b2 bs2))
    obtain ⟨r, rs, hre, hrne⟩ := hbound
    obtain ⟨cn2, hdr⟩ := (drainChr_chunked (f0 + 1) (blockLines b)
      (linesOf bs ++ y :: ys) b.chr 0 (chrN ++ [b.chr])
      (addCell cellN (⟨b.chr, fr0.1, fr0.2.1, fr0.2.2⟩ : BedLine).cell) cap
      (blockLines_chr b) hbne hbchain hcap
      (hfb b (List.mem_cons_self b bs))).1 r rs hre hrne
    rw [← hstream] at hdr
    have hrec := ih y ys g0 (f0 + 1) cap b.chr
      (newLast 0 (blockLines b)) (chrN ++ [b.chr]) cn2
      (fun x hx => hwf x (List.mem_cons_of_mem b hx)) hnd2.2
      (by
        intro x hx
        rw [List.mem_append]
        rintro (h | h)
        · exact hnotin x (List.mem_cons_of_mem b hx) h
        · rw [List.mem_singleton] at h
          exact hnd2.1 (h ▸ List.mem_map_of_mem ChrBlock.chr hx))
      (Or.inr (by simp))
      (fun hbs => hadj [] b (by rw [hbs]; simp))
      (fun pre bl hpre => hadj (b :: pre) bl (by rw [hpre, List.cons_append]))
      (by
        rw [List.mem_append] at hmem ⊢
        rcases hmem with h | h
        · exact Or.inl (by rw [List.mem_append]; exact Or.inl h)
        · rw [List.map_cons, List.mem_cons] at h
          rcases h with h | h
          · exact Or.inl (by rw [List.mem_append, List.mem_singleton]; exact Or.inr h)
          · exact Or.inr h)
      hcap (fun x hx => hfb x (List.mem_cons_of_mem b hx)) hf
      (by rw [List.length_cons] at hg; omega)
    exact runBed_recErr g0 (f0 + 1) cap _ _ _ (blockLines b) BedErr.sortErr
      hnext hdr hrec

/-- A non-empty file's initial state is the fresh state on its lines. -/
theorem initBed_ne (l : List BedLine) (h : l ≠ []) :
    initBed l = mkFresh l "" 0 [] [] := by
  rcases l with _ | ⟨x, xs⟩
  · exact absurd rfl h
  · rfl

/-- A well-formed blocked file has no empty blocks, so its line list is
empty only when there are no blocks. -/
theorem linesOf_ne_nil (b : ChrBlock) (bs : List ChrBlock)
    (hb : b.frags ≠ []) : linesOf (b :: bs) ≠ [] := by
  rw [linesOf_cons]
  intro h
  rcases List.append_eq_nil.mp h with ⟨h1, _⟩
  rw [blockLines] at h1
  exact hb (List.map_eq_nil_iff.mp h1)

/-- Shared core of C3 and of the no-raise-on-ties part of C4: iterating a
well-formed BED input delivers exactly the file's data lines, in order. -/
theorem bedIter_wf_ok (blocks : List ChrBlock) (cap : Nat)
    (hwf : wfBlocks blocks) (hcap : 1 ≤ cap) :
    ∃ s2, runBed (blocks.length + 1) ((linesOf blocks).length + 2) cap
      (initBed (linesOf blocks)) = Except.ok (linesOf blocks, s2) := by
  rcases blocks with _ | ⟨b, bs⟩
  · rw [linesOf_nil]
    exact ⟨_, runBed_false 0 2 cap _ _ (nextChr_none 2 _ rfl)⟩
  · have hne := linesOf_ne_nil b bs (hwf.1 b (List.mem_cons_self b bs)).2.1
    rw [initBed_ne _ hne]
    exact runBed_blocks (b :: bs) ((b :: bs).length + 1)
      ((linesOf (b :: bs)).length + 2) cap "" 0 [] []
      hwf.1 hwf.2 (by simp) (Or.inl rfl) hcap
      (fun x hx => by have := blockLines_length_le (b :: bs) x hx; omega)
      (by omega) (Nat.le_refl _)

/-- C3: for every well-formed BED input (chromosomes contiguous, starts
non-decreasing within each chromosome) and every load capacity of at least
one, iterating a `BedFragments` source by repeated `nextChr`/`load` delivers
exactly one fragment per data line, in file order — the concatenation of all
deliveries is the file's line list, so no line is dropped and none is
delivered twice, including the final line before end-of-file (whose stale
buffered duplicate is parsed once more but discarded, never delivered). -/
theorem c3_bed_delivers_each_line_once (blocks : List ChrBlock) (cap : Nat)
    (hwf : wfBlocks blocks) (hcap : 1 ≤ cap) :
    ∃ s2, runBed (blocks.length + 1) ((linesOf blocks).length + 2) cap
      (initBed (linesOf blocks)) = Except.ok (linesOf blocks, s2) :=
  bedIter_wf_ok blocks cap hwf hcap

/-- Witness for `c3_bed_delivers_each_line_once`: a two-chromosome file with
a tied start, drained with capacity 2. -/
theorem c3_bed_delivers_each_line_once_witness :
    ∃ s2, runBed 3 6 2
      (initBed (linesOf [⟨"chr1", [(10, 20, "A"), (10, 25, "B"), (12, 30, "A")]⟩,
        ⟨"chr2", [(5, 9, "C")]⟩])) =
      Except.ok (linesOf [⟨"chr1", [(10, 20, "A"), (10, 25, "B"), (12, 30, "A")]⟩,
        ⟨"chr2", [(5, 9, "C")]⟩], s2) :=
  c3_bed_delivers_each_line_once
    [⟨"chr1", [(10, 20, "A"), (10, 25, "B"), (12, 30, "A")]⟩, ⟨"chr2", [(5, 9, "C")]⟩]
    2 ⟨by decide, by decide⟩ (by decide)

/-- C4: the sort-error behaviour of `BedFragments`.  First conjunct: a file
whose lines are well-formed up to a line with start strictly below the
previous start on the same chromosome raises the sort error.  Second
conjunct: a file whose blocks re-enter a chromosome that appeared earlier
(and differs from the immediately preceding chromosome, as re-entering is
only observable across a boundary) raises the sort error from `nextChr`'s
failed chromosome registration.  Third conjunct: equal consecutive starts
(ties) do not raise — `wfBlocks` only requires non-decreasing starts, and
every such file is delivered in full. -/
theorem c4_bed_sort_errors :
    (∀ (blocks : List ChrBlock) (c : String) (front : List BedLine)
        (y : BedLine) (ys : List BedLine) (cap : Nat),
      wfBlocks blocks → c ≠ "" → c ∉ blocks.map ChrBlock.chr →
      front ≠ [] → (∀ l ∈ front, l.chr = c) →
      chainLe 0 (front.map BedLine.start) = true →
      y.chr = c → y.start < newLast 0 front → 1 ≤ cap →
      runBed (blocks.length + 1)
        ((linesOf blocks).length + front.length + 2) cap
        (initBed (linesOf blocks ++ (front ++ y :: ys))) =
        Except.error BedErr.sortErr)
    ∧ (∀ (blocks : List ChrBlock) (y : BedLine) (ys : List BedLine) (cap : Nat),
      wfBlocks blocks → y.chr ∈ blocks.map ChrBlock.chr →
      (∀ bl, blocks.getLast? = some bl → y.chr ≠ bl.chr) → 1 ≤ cap →
      runBed (blocks.length + 1) ((linesOf blocks).length + 2) cap
        (initBed (linesOf blocks ++ y :: ys)) = Except.error BedErr.sortErr)
    ∧ (∀ (blocks : List ChrBlock) (cap : Nat),
      wfBlocks blocks → 1 ≤ cap →
      ∃ s2, runBed (blocks.length + 1) ((linesOf blocks).length + 2) cap
        (initBed (linesOf blocks)) = Except.ok (linesOf blocks, s2)) := by
  refine ⟨?_, ?_, ?_⟩
  · intro blocks c front y ys cap hwf hcne hcbl hfr hfchr hfch hyc hlt hcap
    have hne : linesOf blocks ++ (front ++ y :: ys) ≠ [] := by
      intro h
      rcases List.append_eq_nil.mp h with ⟨_, h2⟩
      rcases List.append_eq_nil.mp h2 with ⟨h3, _⟩
      exact hfr h3
    rw [initBed_ne _ hne]
    exact runBed_desc_blocks blocks front y ys (blocks.length + 1)
      ((linesOf blocks).length + front.length + 2) cap c "" 0 [] []
      hwf.1 hwf.2 (by simp) (Or.inl rfl) hcne (by simp) hcbl hfr hfchr hfch
      hyc hlt hcap
      (fun x hx => by have := blockLines_length_le blocks x hx; omega)
      (by omega) (by omega) (Nat.le_refl _)
  · intro blocks y ys cap hwf hmem hadj hcap
    have hne : linesOf blocks ++ y :: ys ≠ [] := by
      intro h
      rcases List.append_eq_nil.mp h with ⟨_, h2⟩
      exact List.cons_ne_nil y ys h2
    rw [initBed_ne _ hne]
    exact runBed_reenter_blocks blocks y ys (blocks.length + 1)
      ((linesOf blocks).length + 2) cap "" 0 [] []
      hwf.1 hwf.2 (by simp) (Or.inl rfl)
      (fun hb => absurd (hb ▸ hmem) (by simp))
      (fun pre bl hpre => hadj bl (by
        rw [hpre, List.getLast?_append]
        rfl))
      (by simpa using hmem)
      hcap
      (fun x hx => by have := blockLines_length_le blocks x hx; omega)
      (by omega) (Nat.le_refl _)
  · intro blocks cap hwf hcap
    exact bedIter_wf_ok blocks cap hwf hcap

/-- Witness for `c4_bed_sort_errors`: a descending start on chr1 raises, a
block re-entering chr1 after chr2 raises, and a file with tied starts is
delivered in full. -/
theorem c4_bed_sort_errors_witness :
    runBed 1 3 1 (initBed (linesOf [] ++
      ([⟨"chr1", 10, 20, "A"⟩] ++ ⟨"chr1", 9, 25, "B"⟩ :: []))) =
      Except.error BedErr.sortErr
    ∧ runBed 3 4 1 (initBed (linesOf [⟨"chr1", [(1, 2, "A")]⟩, ⟨"chr2", [(1, 2, "A")]⟩] ++
        ⟨"chr1", 3, 4, "A"⟩ :: [])) = Except.error BedErr.sortErr
    ∧ ∃ s2, runBed 2 4 1 (initBed (linesOf [⟨"chr1", [(7, 9, "A"), (7, 11, "A")]⟩])) =
        Except.ok (linesOf [⟨"chr1", [(7, 9, "A"), (7, 11, "A")]⟩], s2) := by
  refine ⟨?_, ?_, ?_⟩
  · exact c4_bed_sort_errors.1 [] "chr1" [⟨"chr1", 10, 20, "A"⟩] ⟨"chr1", 9, 25, "B"⟩
      [] 1 ⟨by decide, by decide⟩
      (by decide) (by decide) (by decide) (by decide) (by decide) (by decide)
      (by decide) (by decide)
  · exact c4_bed_sort_errors.2.1 [⟨"chr1", [(1, 2, "A")]⟩, ⟨"chr2", [(1, 2, "A")]⟩]
      ⟨"chr1", 3, 4, "A"⟩ [] 1 ⟨by decide, by decide⟩
      (by decide)
      (fun bl h => by
        have h2 : some (⟨"chr2", [(1, 2, "A")]⟩ : ChrBlock) = some bl := h
        injection h2 with h3
        rw [← h3]
        decide)
      (by decide)
  · exact c4_bed_sort_errors.2.2 [⟨"chr1", [(7, 9, "A"), (7, 11, "A")]⟩] 1
      ⟨by decide, by decide⟩ (by decide)

end BPCellsModel
